import Mathlib

/-!
Verification development for the NCBI FASTA downloader (`NCBIcatcherv1.0.py`).

The Python source is shallowly embedded.  Filenames are lists of characters;
paths are identified with their basename, because the current download
directory is fixed throughout one run.  The regular expressions of
`_scan_existing_files` and `_find_existing_file` are embedded as executable
matchers with the same semantics (a `.*` prelude makes the match unanchored
on the left; Python's leftmost match with a greedy `.*` selects the last
position at which the remainder of the pattern can match).  Character
classes `\d` and `\w` are modelled over ASCII, which covers the filenames
the program itself produces.  The page-collection loop of
`download_fasta_protein` is a fuel-indexed recursive function over an
environment describing what the browser and the filesystem answer at each
step; the fuel plays the role of the `MAX_PAGES` ceiling of the `while`
loop.  The download wait `_wait_for_download` is embedded separately at the
grain of successive `os.listdir` snapshots.
-/

namespace NCBI

/-! ### Generic utilities on lists of characters -/

/-- `startsWithL pre l` : `pre` is a leading segment of `l`. -/
def startsWithL : List Char → List Char → Bool
  | [], _ => true
  | _ :: _, [] => false
  | a :: as, b :: bs => a == b && startsWithL as bs

/-- Occurrence of `needle` as a contiguous segment of the second list
(Python's `in` on strings). -/
def containsSeg (needle : List Char) : List Char → Bool
  | [] => needle.isEmpty
  | c :: rest => startsWithL needle (c :: rest) || containsSeg needle rest

/-- Python's `str.endswith`. -/
def endsWithL (suf l : List Char) : Bool := startsWithL suf.reverse l.reverse

/-- Remove a mandatory leading segment, or fail. -/
def stripPre : List Char → List Char → Option (List Char)
  | [], l => some l
  | _ :: _, [] => none
  | a :: as, b :: bs => if a = b then stripPre as bs else none

/-- `leadsInto l f` : `l` is an initial segment of `f`. -/
def leadsInto (l f : List Char) : Prop := ∃ t, f = l ++ t

/-- `sfx s f` : `s` is a final segment of `f`. -/
def sfx (s f : List Char) : Prop := ∃ t, f = t ++ s

/-! ### Character classes of the regular expressions (ASCII model) -/

def isDigitCh (c : Char) : Bool := decide ('0' ≤ c) && decide (c ≤ '9')

def isWordCh (c : Char) : Bool :=
  isDigitCh c || (decide ('a' ≤ c) && decide (c ≤ 'z'))
    || (decide ('A' ≤ c) && decide (c ≤ 'Z')) || decide (c = '_')

/-- Numeric value of one decimal digit character. -/
def digitVal (c : Char) : Nat := c.toNat - 48

/-- `int()` applied to a string of decimal digits. -/
def digitsVal (l : List Char) : Nat := l.foldl (fun a c => 10 * a + digitVal c) 0

def digitChar (d : Nat) : Char :=
  if d = 0 then '0' else if d = 1 then '1' else if d = 2 then '2'
  else if d = 3 then '3' else if d = 4 then '4' else if d = 5 then '5'
  else if d = 6 then '6' else if d = 7 then '7' else if d = 8 then '8' else '9'

/-- Fuel-indexed helper for the decimal representation; the fallback branch
is unreachable whenever `n ≤ fuel`. -/
def natReprAux : Nat → Nat → List Char
  | 0, n => [digitChar n]
  | fuel + 1, n =>
    if n < 10 then [digitChar n]
    else natReprAux fuel (n / 10) ++ [digitChar (n % 10)]

/-- Decimal representation of a natural number (`str(page_num)`). -/
def natRepr (n : Nat) : List Char := natReprAux n n

theorem natReprAux_fuel (fuel fuel' n : Nat) (h : n ≤ fuel) (h' : n ≤ fuel') :
    natReprAux fuel n = natReprAux fuel' n := by
  induction fuel generalizing fuel' n with
  | zero =>
    cases fuel' with
    | zero => rfl
    | succ k =>
      have hn : n = 0 := Nat.le_zero.mp h
      simp [natReprAux, hn]
  | succ m ih =>
    cases fuel' with
    | zero =>
      have hn : n = 0 := Nat.le_zero.mp h'
      simp [natReprAux, hn]
    | succ k =>
      simp only [natReprAux]
      by_cases hlt : n < 10
      · simp [hlt]
      · simp only [hlt, if_false]
        have hlt2 : n / 10 < n := Nat.div_lt_self (by omega) (by omega)
        have hd : n / 10 ≤ m := by omega
        have hd' : n / 10 ≤ k := by omega
        rw [ih k (n / 10) hd hd']

/-- Characteristic recursion of `natRepr`. -/
theorem natRepr_eq (n : Nat) :
    natRepr n = if n < 10 then [digitChar n]
      else natRepr (n / 10) ++ [digitChar (n % 10)] := by
  by_cases hlt : n < 10
  · cases n with
    | zero => simp [natRepr, natReprAux, hlt]
    | succ m => simp [natRepr, natReprAux, hlt]
  · have h10 : 10 ≤ n := by omega
    cases n with
    | zero => omega
    | succ m =>
      simp only [natRepr, natReprAux, hlt, if_false]
      have hlt2 : (m + 1) / 10 < m + 1 := Nat.div_lt_self (by omega) (by omega)
      have hle : (m + 1) / 10 ≤ m := by omega
      rw [natReprAux_fuel m ((m + 1) / 10) ((m + 1) / 10) hle (Nat.le_refl _)]

/-! ### Filename patterns of `_scan_existing_files` / `_find_existing_file`

`_scan_existing_files` matches a filename against
`.*<ns>_page_(\d+)\.\w+$` and collects `int(group(1))`;
`_find_existing_file` matches against `.*<ns>_page_<p>\.\w+$` and returns
the first file of the directory listing that matches. -/

def pageSep : List Char := ['_', 'p', 'a', 'g', 'e', '_']

/-- `f"{safe_search_term}_page_{page_num}{file_ext}"`; `ext` carries its
leading dot, as `os.path.splitext` produces it. -/
def canonicalName (ns : List Char) (p : Nat) (ext : List Char) : List Char :=
  ns ++ pageSep ++ natRepr p ++ ext

/-- Match of `<ns>_page_(\d+)\.\w+$` exactly at the head of `l`, returning
`int` of the digit group.  The greedy `(\d+)` stops at the mandatory dot. -/
def parseTail (ns : List Char) (l : List Char) : Option Nat :=
  match stripPre (ns ++ pageSep) l with
  | none => none
  | some r =>
    let ds := r.takeWhile isDigitCh
    match r.dropWhile isDigitCh with
    | c :: ext =>
      if c = '.' && !ds.isEmpty && !ext.isEmpty && ext.all isWordCh
      then some (digitsVal ds) else none
    | [] => none

/-- Page number extracted by the scan regex from one filename: the `.*`
prelude is greedy, so the match anchors at the last position where the rest
of the pattern succeeds. -/
def scanPageOf (ns : List Char) : List Char → Option Nat
  | [] => none
  | c :: rest => (scanPageOf ns rest).orElse (fun _ => parseTail ns (c :: rest))

/-- `_scan_existing_files`: pages of all matching files of the listing. -/
def scan_existing_files (ns : List Char) (listing : List (List Char)) : List Nat :=
  listing.filterMap (scanPageOf ns)

/-- Match of `<ns>_page_<p>\.\w+$` exactly at the head of `l` (the page
number is interpolated literally into the pattern). -/
def findTail (ns : List Char) (p : Nat) (l : List Char) : Bool :=
  match stripPre (ns ++ pageSep ++ natRepr p ++ ['.']) l with
  | some ext => !ext.isEmpty && ext.all isWordCh
  | none => false

/-- Unanchored match of the `_find_existing_file` pattern. -/
def findMatch (ns : List Char) (p : Nat) : List Char → Bool
  | [] => false
  | c :: rest => findTail ns p (c :: rest) || findMatch ns p rest

/-- `_find_existing_file`: first file of the listing matching the pattern. -/
def find_existing_file (ns : List Char) (p : Nat)
    (listing : List (List Char)) : Option (List Char) :=
  listing.find? (findMatch ns p)

/-! ### `_wait_for_download` -/

/-- `os.path.splitext(file)[1]`: the suffix from the rightmost dot, provided
some character strictly before that dot is not itself a dot. -/
def splitextExt (l : List Char) : List Char :=
  let r := l.reverse
  let e := r.takeWhile (fun c => c ≠ '.')
  if e.length = r.length then []
  else if (r.drop (e.length + 1)).all (fun c => c = '.') then []
  else '.' :: e.reverse

def toLowerList (l : List Char) : List Char := l.map Char.toLower

/-- The extension markers `['.fasta', '.fa', '.txt']` of the source. -/
def dlMarkers : List (List Char) :=
  [['.', 'f', 'a', 's', 't', 'a'], ['.', 'f', 'a'], ['.', 't', 'x', 't']]

/-- Acceptance test of `_wait_for_download`: some marker occurs as a
substring of the lowercased name (`ext in file_lower`), and the original
name does not end in `.crdownload` or `.tmp`. -/
def isAcceptedName (f : List Char) : Bool :=
  (dlMarkers.any (fun m => containsSeg m (toLowerList f)))
    && !endsWithL ['.', 'c', 'r', 'd', 'o', 'w', 'n', 'l', 'o', 'a', 'd'] f
    && !endsWithL ['.', 't', 'm', 'p'] f

/-- `current_files - initial_files`, in listing order. -/
def newFiles (baseline cur : List (List Char)) : List (List Char) :=
  cur.filter (fun f => !(baseline.contains f))

structure WaitOut where
  result : Option (List Char)
  renames : List (List Char × List Char)
  removed : List (List Char)
deriving DecidableEq, Repr

/-- `_wait_for_download`, driven by the successive `os.listdir` snapshots of
its polling loop; an exhausted snapshot list is the timeout.  On acceptance
the candidate is renamed to the canonical name, after deleting a
pre-existing file of that exact name.  Python iterates `new_files` in
unspecified set order; the model fixes listing order, which no claim
distinguishes. -/
def wait_for_download (ns : List Char) (p : Nat) (baseline : List (List Char)) :
    List (List (List Char)) → WaitOut
  | [] => ⟨none, [], []⟩
  | cur :: rest =>
    match (newFiles baseline cur).find? isAcceptedName with
    | some f =>
      let canon := canonicalName ns p (splitextExt f)
      ⟨some canon, [(f, canon)], if cur.contains canon then [canon] else []⟩
    | none => wait_for_download ns p baseline rest

/-! ### The collection loop of `download_fasta_protein` -/

/-- Outcome of one fallible browser step: the helper returned success,
returned failure, or let an exception escape (only `_click_send_to` and
`_select_coding_sequences` can let a non-timeout exception escape to the
top-level handler; every other helper catches `Exception` itself). -/
inductive SOut where
  | ok
  | fail
  | exn
deriving DecidableEq, Repr

/-- Browser interactions performed by the loop, tagged with the page being
processed. -/
inductive Ev where
  | jump (p : Nat)
  | select (p : Nat)
  | sendTo (p : Nat)
  | coding (p : Nat)
  | exportTrigger (p : Nat)
  | closeTabs (p : Nat)
  | deselect (p : Nat)
deriving DecidableEq, Repr

def evPage : Ev → Nat
  | .jump p => p
  | .select p => p
  | .sendTo p => p
  | .coding p => p
  | .exportTrigger p => p
  | .closeTabs p => p
  | .deselect p => p

/-- What the browser answers to `_jump_to_page`'s three strategies: whether
the page-number input box works, the `page` attributes of the
`a.page_link.next` elements, and whether the fixed-XPATH click works. -/
structure JumpEnv where
  inputBox : Bool
  nextButtonPages : List (Option Nat)
  xpath : Bool

/-- Strategy 2 of `_jump_to_page`: click the first next-button whose `page`
attribute equals the target. -/
def tryNextButtons (target : Nat) : List (Option Nat) → Bool
  | [] => false
  | none :: rest => tryNextButtons target rest
  | some n :: rest => (n == target) || tryNextButtons target rest

/-- `_jump_to_page`: the three strategies in their fixed order. -/
def jump_to_page (je : JumpEnv) (target : Nat) : Bool :=
  je.inputBox || tryNextButtons target je.nextButtonPages || je.xpath

inductive JStrat where
  | inputBox
  | nextButton
  | xpath
deriving DecidableEq, Repr

/-- Strategies actually attempted by `_jump_to_page`, in order. -/
def jumpAttempts (je : JumpEnv) (target : Nat) : List JStrat :=
  if je.inputBox then [.inputBox]
  else if tryNextButtons target je.nextButtonPages then [.inputBox, .nextButton]
  else [.inputBox, .nextButton, .xpath]

/-- One element of `downloaded_files`. -/
structure Entry where
  page : Nat
  path : List Char
deriving DecidableEq, Repr

/-- Environment of one collection run: the configuration flag
`enable_resume`, the directory listing at scan time, whether `driver.get`
raises, and the per-page answers of the browser.  `download p` abstracts
`_configure_and_download`: `some ext` when a file with extension `ext`
was captured for page `p`, `none` when it returned `None` (configuration
failure or download timeout). -/
structure Env where
  resume : Bool
  listing : List (List Char)
  navRaises : Bool
  jump : Nat → JumpEnv
  selCount : Nat → Nat
  sendToStep : Nat → SOut
  codingStep : Nat → SOut
  download : Nat → Option (List Char)

structure RunOut where
  files : List Entry
  events : List Ev
  dir : List (List Char)
  raised : Bool
deriving DecidableEq, Repr

/-- Effect of the rename inside `_wait_for_download` on the download
directory: a pre-existing file of the canonical name is deleted, and the
canonical name appears. -/
def applyRename (dir : List (List Char)) (canon : List Char) : List (List Char) :=
  dir.filter (fun g => !(g == canon)) ++ [canon]

/-- The `while page_num <= MAX_PAGES` loop of `download_fasta_protein`.
`fuel` is the number of page iterations still allowed by the ceiling; `p` is
`page_num`; `dir` the current directory contents; `ex` is
`self.existing_pages`; `files` is `downloaded_files`; `evs` the browser
interactions performed so far.  `raised` records that an exception escaped
to the top-level handler. -/
def loopRun (env : Env) (ns : List Char) :
    Nat → Nat → List (List Char) → List Nat → List Entry → List Ev → RunOut
  | 0, _, dir, _, files, evs => ⟨files, evs, dir, false⟩
  | fuel + 1, p, dir, ex, files, evs =>
    if env.resume && ex.contains p then
      match find_existing_file ns p dir with
      | some f => loopRun env ns fuel (p + 1) dir ex (files ++ [⟨p, f⟩]) evs
      | none => loopRun env ns fuel (p + 1) dir ex files evs
    else if decide (p > 1) && !jump_to_page (env.jump p) p then
      ⟨files, evs ++ [Ev.jump p], dir, false⟩
    else
      let evs2 := (if decide (p > 1) then evs ++ [Ev.jump p] else evs) ++ [Ev.select p]
      if env.selCount p = 0 then ⟨files, evs2, dir, false⟩
      else
        let evs3 := evs2 ++ [Ev.sendTo p]
        match env.sendToStep p with
        | .exn => ⟨files, evs3, dir, true⟩
        | .fail => ⟨files, evs3, dir, false⟩
        | .ok =>
          let evs4 := evs3 ++ [Ev.coding p]
          match env.codingStep p with
          | .exn => ⟨files, evs4, dir, true⟩
          | .fail => ⟨files, evs4, dir, false⟩
          | .ok =>
            let evs5 := evs4 ++ [Ev.exportTrigger p]
            match env.download p with
            | some ext =>
              loopRun env ns fuel (p + 1) (applyRename dir (canonicalName ns p ext))
                (if env.resume then ex ++ [p] else ex)
                (files ++ [⟨p, canonicalName ns p ext⟩])
                (evs5 ++ [Ev.closeTabs p, Ev.deselect p])
            | none =>
              loopRun env ns fuel (p + 1) dir ex files
                (evs5 ++ [Ev.closeTabs p, Ev.deselect p])

/-- The body of `download_fasta_protein` after a successful driver setup,
against an explicit directory listing: scan the directory when resume is
enabled, navigate (whose exception is caught by the top-level handler,
yielding the empty list), then run the page loop from page 1 with
`maxPages` iterations allowed. -/
def collectOn (env : Env) (ns : List Char) (maxPages : Nat)
    (listing : List (List Char)) : RunOut :=
  if env.navRaises then ⟨[], [], listing, true⟩
  else
    loopRun env ns maxPages 1 listing
      (if env.resume then scan_existing_files ns listing else []) [] []

/-- The body of `download_fasta_protein`, run against the scan-time listing
of the environment. -/
def collect (env : Env) (ns : List Char) (maxPages : Nat) : RunOut :=
  collectOn env ns maxPages env.listing

/-- `download_fasta_protein`: `None` when the driver setup fails, otherwise
the accumulated file list — the `except Exception` handler returns the same
accumulated list, so a raised exception never propagates. -/
def download_fasta_protein (env : Env) (ns : List Char) (maxPages : Nat)
    (setupOk : Bool) : Option (List Entry) :=
  if setupOk then some (collect env ns maxPages).files else none

/-- Well-formed extension: a dot followed by a nonempty run of `\w`
characters, as every extension the program's own renames produce. -/
def extOk (ext : List Char) : Bool :=
  match ext with
  | c :: w => c = '.' && !w.isEmpty && w.all isWordCh
  | [] => false

/-! ### Lemmas about the list utilities -/

theorem stripPre_eq_some (a : List Char) :
    ∀ l r, stripPre a l = some r ↔ l = a ++ r := by
  induction a with
  | nil => intro l r; simp [stripPre]
  | cons x xs ih =>
    intro l r
    cases l with
    | nil => simp [stripPre]
    | cons y ys =>
      simp only [stripPre]
      by_cases hxy : x = y
      · subst hxy
        simp only [if_pos rfl, List.cons_append, List.cons.injEq, true_and]
        exact ih ys r
      · simp [hxy, Ne.symm hxy]

theorem stripPre_append (a b : List Char) : stripPre a (a ++ b) = some b :=
  (stripPre_eq_some a (a ++ b) b).mpr rfl

theorem takeWhile_terminated (P : Char → Bool) (a : List Char) :
    ∀ c b, a.all P = true → P c = false → (a ++ c :: b).takeWhile P = a := by
  induction a with
  | nil => intro c b _ hc; simp [List.takeWhile, hc]
  | cons x xs ih =>
    intro c b ha hc
    simp only [List.all_cons, Bool.and_eq_true] at ha
    simp [List.takeWhile, ha.1, ih c b ha.2 hc]

theorem dropWhile_terminated (P : Char → Bool) (a : List Char) :
    ∀ c b, a.all P = true → P c = false → (a ++ c :: b).dropWhile P = c :: b := by
  induction a with
  | nil => intro c b _ hc; simp [List.dropWhile, hc]
  | cons x xs ih =>
    intro c b ha hc
    simp only [List.all_cons, Bool.and_eq_true] at ha
    simp [List.dropWhile, ha.1, ih c b ha.2 hc]

theorem all_takeWhile (P : Char → Bool) (l : List Char) :
    (l.takeWhile P).all P = true := by
  induction l with
  | nil => rfl
  | cons x xs ih =>
    by_cases h : P x = true
    · simp [List.takeWhile, h, ih]
    · simp only [Bool.not_eq_true] at h
      simp [List.takeWhile, h]

/-! ### Characterization of the pattern matchers -/

/-- `parseTail` succeeds exactly on `<ns>_page_<digits>.<wordchars>`. -/
theorem parseTail_iff (ns l : List Char) (v : Nat) :
    parseTail ns l = some v ↔
      ∃ ds ext, l = ns ++ pageSep ++ ds ++ '.' :: ext ∧ ds ≠ [] ∧
        ds.all isDigitCh = true ∧ ext ≠ [] ∧ ext.all isWordCh = true ∧
        v = digitsVal ds := by
  constructor
  · intro h
    unfold parseTail at h
    cases hs : stripPre (ns ++ pageSep) l with
    | none => rw [hs] at h; exact absurd h (by simp)
    | some r =>
      rw [hs] at h
      simp only at h
      cases hd : r.dropWhile isDigitCh with
      | nil => rw [hd] at h; exact absurd h (by simp)
      | cons c rest =>
        rw [hd] at h
        dsimp only at h
        by_cases hg : (c = '.' && !(r.takeWhile isDigitCh).isEmpty
            && !rest.isEmpty && rest.all isWordCh) = true
        · rw [if_pos hg] at h
          simp only [Bool.and_eq_true, decide_eq_true_eq, Bool.not_eq_true',
            List.isEmpty_eq_false] at hg
          obtain ⟨⟨⟨hc, hds⟩, hrest⟩, hrestall⟩ := hg
          subst hc
          refine ⟨r.takeWhile isDigitCh, rest, ?_, hds, all_takeWhile _ _, hrest,
            hrestall, (Option.some.inj h).symm⟩
          have hl : l = (ns ++ pageSep) ++ r := (stripPre_eq_some _ _ _).mp hs
          have hr : r = r.takeWhile isDigitCh ++ '.' :: rest := by
            conv_lhs => rw [← List.takeWhile_append_dropWhile isDigitCh r]
            rw [hd]
          rw [hl]
          conv_lhs => rw [hr]
          simp [List.append_assoc]
        · rw [if_neg hg] at h; exact absurd h (by simp)
  · rintro ⟨ds, ext, rfl, hds, hdsall, hext, hextall, rfl⟩
    unfold parseTail
    have hs : stripPre (ns ++ pageSep) (ns ++ pageSep ++ ds ++ '.' :: ext)
        = some (ds ++ '.' :: ext) := by
      rw [List.append_assoc]
      exact stripPre_append _ _
    rw [hs]
    simp only
    have hdot : isDigitCh '.' = false := by decide
    rw [takeWhile_terminated isDigitCh ds '.' ext hdsall hdot,
      dropWhile_terminated isDigitCh ds '.' ext hdsall hdot]
    simp [hds, hext, hextall]

/-- `findTail` succeeds exactly on `<ns>_page_<p literal>.<wordchars>`. -/
theorem findTail_iff (ns : List Char) (p : Nat) (l : List Char) :
    findTail ns p l = true ↔
      ∃ ext, l = ns ++ pageSep ++ natRepr p ++ '.' :: ext ∧ ext ≠ [] ∧
        ext.all isWordCh = true := by
  unfold findTail
  cases hs : stripPre (ns ++ pageSep ++ natRepr p ++ ['.']) l with
  | none =>
    simp only [Bool.false_eq_true, false_iff]
    rintro ⟨ext, rfl, _, _⟩
    have : ns ++ pageSep ++ natRepr p ++ '.' :: ext
        = (ns ++ pageSep ++ natRepr p ++ ['.']) ++ ext := by
      simp [List.append_assoc]
    rw [this, stripPre_append] at hs
    exact absurd hs (by simp)
  | some ext =>
    simp only [Bool.and_eq_true, Bool.not_eq_true', List.isEmpty_eq_false]
    constructor
    · rintro ⟨h1, h2⟩
      have hl := (stripPre_eq_some _ _ _).mp hs
      exact ⟨ext, by rw [hl]; simp [List.append_assoc], h1, h2⟩
    · rintro ⟨ext', hl, h1, h2⟩
      have hl2 : l = (ns ++ pageSep ++ natRepr p ++ ['.']) ++ ext' := by
        rw [hl]; simp [List.append_assoc]
      rw [hl2, stripPre_append] at hs
      have : ext = ext' := by injection hs with h; exact h.symm
      subst this
      exact ⟨h1, h2⟩

/-! ### Rigidity of the parse: two matches in the same filename coincide -/

theorem chomp (P : Char → Bool) (F a₁ b₁ a₂ b₂ : List Char) (c₁ c₂ : Char)
    (h₁ : leadsInto (a₁ ++ c₁ :: b₁) F) (h₂ : leadsInto (a₂ ++ c₂ :: b₂) F)
    (ha₁ : a₁.all P = true) (ha₂ : a₂.all P = true)
    (hc₁ : P c₁ = false) (hc₂ : P c₂ = false) :
    a₁ = a₂ ∧ c₁ = c₂ ∧ ∃ R, leadsInto b₁ R ∧ leadsInto b₂ R := by
  obtain ⟨t₁, ht₁⟩ := h₁
  obtain ⟨t₂, ht₂⟩ := h₂
  rw [List.append_assoc, List.cons_append] at ht₁ ht₂
  have e₁ : F.takeWhile P = a₁ := by
    rw [ht₁]; exact takeWhile_terminated P a₁ c₁ (b₁ ++ t₁) ha₁ hc₁
  have e₂ : F.takeWhile P = a₂ := by
    rw [ht₂]; exact takeWhile_terminated P a₂ c₂ (b₂ ++ t₂) ha₂ hc₂
  have d₁ : F.dropWhile P = c₁ :: (b₁ ++ t₁) := by
    rw [ht₁]; exact dropWhile_terminated P a₁ c₁ (b₁ ++ t₁) ha₁ hc₁
  have d₂ : F.dropWhile P = c₂ :: (b₂ ++ t₂) := by
    rw [ht₂]; exact dropWhile_terminated P a₂ c₂ (b₂ ++ t₂) ha₂ hc₂
  rw [d₁] at d₂
  injection d₂ with hc hb
  exact ⟨e₁.symm.trans e₂, hc, b₁ ++ t₁, ⟨t₁, rfl⟩, ⟨t₂, hb⟩⟩

/-- Any two successful pattern matches at final segments of the same
filename are the same match: the trailing `\.\w+$` pins the extension, the
digits group is pinned between the extension's dot and the underscore that
ends `_page_`, and the remainder is then forced. -/
theorem sfx_parse_unique (ns f s₁ s₂ : List Char) (v₁ v₂ : Nat)
    (h₁ : sfx s₁ f) (h₂ : sfx s₂ f)
    (hp₁ : parseTail ns s₁ = some v₁) (hp₂ : parseTail ns s₂ = some v₂) :
    s₁ = s₂ ∧ v₁ = v₂ := by
  obtain ⟨ds₁, ext₁, he₁, hds₁, hall₁, hext₁, hwall₁, hv₁⟩ := (parseTail_iff ns s₁ v₁).mp hp₁
  obtain ⟨ds₂, ext₂, he₂, hds₂, hall₂, hext₂, hwall₂, hv₂⟩ := (parseTail_iff ns s₂ v₂).mp hp₂
  obtain ⟨t₁, ht₁⟩ := h₁
  obtain ⟨t₂, ht₂⟩ := h₂
  have hr₁ : leadsInto (ext₁.reverse ++ '.' :: (ds₁.reverse ++ pageSep.reverse
      ++ ns.reverse)) f.reverse := by
    refine ⟨t₁.reverse, ?_⟩
    rw [ht₁, he₁]
    simp [List.reverse_append, List.append_assoc]
  have hr₂ : leadsInto (ext₂.reverse ++ '.' :: (ds₂.reverse ++ pageSep.reverse
      ++ ns.reverse)) f.reverse := by
    refine ⟨t₂.reverse, ?_⟩
    rw [ht₂, he₂]
    simp [List.reverse_append, List.append_assoc]
  have hwr₁ : ext₁.reverse.all isWordCh = true := by
    rw [List.all_reverse]; exact hwall₁
  have hwr₂ : ext₂.reverse.all isWordCh = true := by
    rw [List.all_reverse]; exact hwall₂
  have hdot : isWordCh '.' = false := by decide
  obtain ⟨hexteq, -, R, hR₁, hR₂⟩ := chomp isWordCh f.reverse
    ext₁.reverse (ds₁.reverse ++ pageSep.reverse ++ ns.reverse)
    ext₂.reverse (ds₂.reverse ++ pageSep.reverse ++ ns.reverse)
    '.' '.' hr₁ hr₂ hwr₁ hwr₂ hdot hdot
  have hext_eq : ext₁ = ext₂ := by
    have := congrArg List.reverse hexteq
    simpa using this
  have hsep : pageSep.reverse = '_' :: ['e', 'g', 'a', 'p', '_'] := by decide
  have hR₁' : leadsInto (ds₁.reverse ++ '_' :: (['e', 'g', 'a', 'p', '_']
      ++ ns.reverse)) R := by
    obtain ⟨u, hu⟩ := hR₁
    refine ⟨u, ?_⟩
    rw [hu, hsep]
    simp [List.append_assoc]
  have hR₂' : leadsInto (ds₂.reverse ++ '_' :: (['e', 'g', 'a', 'p', '_']
      ++ ns.reverse)) R := by
    obtain ⟨u, hu⟩ := hR₂
    refine ⟨u, ?_⟩
    rw [hu, hsep]
    simp [List.append_assoc]
  have hdr₁ : ds₁.reverse.all isDigitCh = true := by
    rw [List.all_reverse]; exact hall₁
  have hdr₂ : ds₂.reverse.all isDigitCh = true := by
    rw [List.all_reverse]; exact hall₂
  have hund : isDigitCh '_' = false := by decide
  obtain ⟨hdseq, -, -⟩ := chomp isDigitCh R
    ds₁.reverse (['e', 'g', 'a', 'p', '_'] ++ ns.reverse)
    ds₂.reverse (['e', 'g', 'a', 'p', '_'] ++ ns.reverse)
    '_' '_' hR₁' hR₂' hdr₁ hdr₂ hund hund
  have hds_eq : ds₁ = ds₂ := by
    have := congrArg List.reverse hdseq
    simpa using this
  subst hds_eq hext_eq
  exact ⟨he₁.trans he₂.symm, by rw [hv₁, hv₂]⟩

/-! ### The scan regex in terms of parses -/

theorem sfx_cons {s rest : List Char} (c : Char) (h : sfx s rest) :
    sfx s (c :: rest) := by
  obtain ⟨t, ht⟩ := h
  exact ⟨c :: t, by rw [ht]; rfl⟩

theorem scanPageOf_exists (ns : List Char) :
    ∀ f v, scanPageOf ns f = some v → ∃ s, sfx s f ∧ parseTail ns s = some v := by
  intro f
  induction f with
  | nil => intro v h; exact absurd h (by simp [scanPageOf])
  | cons c rest ih =>
    intro v h
    unfold scanPageOf at h
    cases hr : scanPageOf ns rest with
    | some w =>
      rw [hr] at h
      simp [Option.orElse] at h
      obtain ⟨s, hs, hp⟩ := ih w hr
      exact ⟨s, sfx_cons c hs, by rw [hp, h]⟩
    | none =>
      rw [hr] at h
      simp only [Option.orElse] at h
      exact ⟨c :: rest, ⟨[], rfl⟩, h⟩

theorem scanPageOf_isSome (ns : List Char) :
    ∀ f s v, sfx s f → parseTail ns s = some v →
      (scanPageOf ns f).isSome = true := by
  intro f
  induction f with
  | nil =>
    intro s v hs hp
    obtain ⟨t, ht⟩ := hs
    have hs0 : s = [] := by
      rcases List.append_eq_nil.mp ht.symm with ⟨-, h⟩
      exact h
    subst hs0
    rw [show parseTail ns [] = none by
      unfold parseTail
      cases hns : stripPre (ns ++ pageSep) [] with
      | none => simp
      | some r =>
        have := (stripPre_eq_some _ _ _).mp hns
        have hne : ns ++ pageSep ≠ [] := by simp [pageSep]
        exact absurd this.symm (by
          intro hcontr
          rcases List.append_eq_nil.mp hcontr with ⟨h1, -⟩
          exact hne h1)] at hp
    exact absurd hp (by simp)
  | cons c rest ih =>
    intro s v hs hp
    obtain ⟨t, ht⟩ := hs
    cases t with
    | nil =>
      simp only [List.nil_append] at ht
      subst ht
      unfold scanPageOf
      cases hr : scanPageOf ns rest with
      | some w => simp [Option.orElse]
      | none => simp [Option.orElse, hp]
    | cons x xs =>
      have hres : rest = xs ++ s := by
        rw [List.cons_append] at ht
        injection ht with h1 h2
      have hsome := ih s v ⟨xs, hres⟩ hp
      unfold scanPageOf
      cases hr : scanPageOf ns rest with
      | some w => simp [Option.orElse]
      | none => rw [hr] at hsome; exact absurd hsome (by simp)

/-- The scan regex returns the value of the unique parse. -/
theorem scan_det (ns f s : List Char) (v : Nat) (hs : sfx s f)
    (hp : parseTail ns s = some v) : scanPageOf ns f = some v := by
  have h1 := scanPageOf_isSome ns f s v hs hp
  cases h : scanPageOf ns f with
  | none => rw [h] at h1; exact absurd h1 (by simp)
  | some w =>
    obtain ⟨s', hs', hp'⟩ := scanPageOf_exists ns f w h
    obtain ⟨-, hveq⟩ := sfx_parse_unique ns f s' s w v hs' hs hp' hp
    rw [hveq]

/-! ### Decimal representations round-trip through the patterns -/

theorem digitChar_isDigit (d : Nat) : isDigitCh (digitChar d) = true := by
  unfold digitChar
  repeat' split
  all_goals decide

theorem digitVal_digitChar (d : Nat) (h : d < 10) :
    digitVal (digitChar d) = d := by
  interval_cases d <;> decide

theorem digitsVal_append_one (l : List Char) (c : Char) :
    digitsVal (l ++ [c]) = 10 * digitsVal l + digitVal c := by
  unfold digitsVal
  rw [List.foldl_append]
  rfl

theorem digitsVal_natRepr (n : Nat) : digitsVal (natRepr n) = n := by
  induction n using Nat.strong_induction_on with
  | _ n ih =>
    rw [natRepr_eq]
    by_cases h : n < 10
    · rw [if_pos h]
      show 10 * 0 + digitVal (digitChar n) = n
      rw [digitVal_digitChar n h]
      omega
    · rw [if_neg h, digitsVal_append_one,
        ih (n / 10) (Nat.div_lt_self (by omega) (by omega)),
        digitVal_digitChar (n % 10) (Nat.mod_lt n (by omega))]
      omega

theorem natRepr_all (n : Nat) : (natRepr n).all isDigitCh = true := by
  induction n using Nat.strong_induction_on with
  | _ n ih =>
    rw [natRepr_eq]
    by_cases h : n < 10
    · simp [h, digitChar_isDigit]
    · rw [if_neg h]
      simp [List.all_append, ih (n / 10) (Nat.div_lt_self (by omega) (by omega)),
        digitChar_isDigit]

theorem natRepr_ne_nil (n : Nat) : natRepr n ≠ [] := by
  rw [natRepr_eq]
  by_cases h : n < 10 <;> simp [h]

theorem natRepr_inj {m n : Nat} (h : natRepr m = natRepr n) : m = n := by
  have hm := digitsVal_natRepr m
  rw [h, digitsVal_natRepr] at hm
  exact hm.symm

/-! ### The canonical filename against the two patterns -/

theorem extOk_elim {ext : List Char} (h : extOk ext = true) :
    ∃ w, ext = '.' :: w ∧ w ≠ [] ∧ w.all isWordCh = true := by
  cases ext with
  | nil => exact absurd h (by simp [extOk])
  | cons c w =>
    unfold extOk at h
    simp only [Bool.and_eq_true, decide_eq_true_eq, Bool.not_eq_true',
      List.isEmpty_eq_false] at h
    exact ⟨w, by rw [h.1.1], h.1.2, h.2⟩

theorem parseTail_canonical (ns : List Char) (p : Nat) (ext : List Char)
    (h : extOk ext = true) :
    parseTail ns (canonicalName ns p ext) = some p := by
  obtain ⟨w, rfl, hw, hwall⟩ := extOk_elim h
  have := (parseTail_iff ns (ns ++ pageSep ++ natRepr p ++ '.' :: w)
      (digitsVal (natRepr p))).mpr
    ⟨natRepr p, w, rfl, natRepr_ne_nil p, natRepr_all p, hw, hwall, rfl⟩
  rw [show canonicalName ns p ('.' :: w)
      = ns ++ pageSep ++ natRepr p ++ '.' :: w from rfl, this, digitsVal_natRepr]

/-- Every canonical filename the program writes is recognized by the scan
regex with its own page number. -/
theorem scanPageOf_canonical (ns : List Char) (p : Nat) (ext : List Char)
    (h : extOk ext = true) :
    scanPageOf ns (canonicalName ns p ext) = some p :=
  scan_det ns _ _ p ⟨[], rfl⟩ (parseTail_canonical ns p ext h)

theorem findTail_canonical (ns : List Char) (p : Nat) (ext : List Char)
    (h : extOk ext = true) :
    findTail ns p (canonicalName ns p ext) = true := by
  obtain ⟨w, rfl, hw, hwall⟩ := extOk_elim h
  exact (findTail_iff ns p _).mpr ⟨w, rfl, hw, hwall⟩

theorem findMatch_of_findTail (ns : List Char) (p : Nat) (f : List Char)
    (h : findTail ns p f = true) : findMatch ns p f = true := by
  cases f with
  | nil =>
    obtain ⟨ext, hf, -, -⟩ := (findTail_iff ns p []).mp h
    exact absurd hf.symm (by simp [pageSep])
  | cons c rest => unfold findMatch; rw [h, Bool.true_or]

theorem findMatch_canonical (ns : List Char) (p : Nat) (ext : List Char)
    (h : extOk ext = true) :
    findMatch ns p (canonicalName ns p ext) = true :=
  findMatch_of_findTail ns p _ (findTail_canonical ns p ext h)

theorem findMatch_exists (ns : List Char) (p : Nat) :
    ∀ f, findMatch ns p f = true → ∃ s, sfx s f ∧ findTail ns p s = true := by
  intro f
  induction f with
  | nil => intro h; exact absurd h (by simp [findMatch])
  | cons c rest ih =>
    intro h
    unfold findMatch at h
    rcases Bool.or_eq_true_iff.mp h with h1 | h2
    · exact ⟨c :: rest, ⟨[], rfl⟩, h1⟩
    · obtain ⟨s, hs, ht⟩ := ih h2
      exact ⟨s, sfx_cons c hs, ht⟩

/-- A filename matched by the find pattern for page `p` is recognized by the
scan regex as page `p` as well. -/
theorem findMatch_imp_scan (ns : List Char) (p : Nat) (f : List Char)
    (h : findMatch ns p f = true) : scanPageOf ns f = some p := by
  obtain ⟨s, hs, ht⟩ := findMatch_exists ns p f h
  obtain ⟨ext, rfl, hext, hwall⟩ := (findTail_iff ns p s).mp ht
  have hp : parseTail ns (ns ++ pageSep ++ natRepr p ++ '.' :: ext) = some p := by
    have := (parseTail_iff ns (ns ++ pageSep ++ natRepr p ++ '.' :: ext)
        (digitsVal (natRepr p))).mpr
      ⟨natRepr p, ext, rfl, natRepr_ne_nil p, natRepr_all p, hext, hwall, rfl⟩
    rw [this, digitsVal_natRepr]
  exact scan_det ns f _ p hs hp

/-- Canonical filenames of other pages never satisfy the find pattern. -/
theorem findMatch_canonical_ne (ns : List Char) (p q : Nat) (ext : List Char)
    (hq : extOk ext = true) (hne : q ≠ p) :
    findMatch ns p (canonicalName ns q ext) = false := by
  cases h : findMatch ns p (canonicalName ns q ext) with
  | false => rfl
  | true =>
    have h1 := findMatch_imp_scan ns p _ h
    rw [scanPageOf_canonical ns q ext hq] at h1
    exact absurd (Option.some.inj h1) hne

/-! ### One-step characterizations of the collection loop -/

theorem loopRun_skip_found (env : Env) (ns : List Char) (fuel p : Nat)
    (dir : List (List Char)) (ex : List Nat) (files : List Entry) (evs : List Ev)
    (f : List Char) (hr : env.resume = true) (hex : ex.contains p = true)
    (hf : find_existing_file ns p dir = some f) :
    loopRun env ns (fuel + 1) p dir ex files evs
      = loopRun env ns fuel (p + 1) dir ex (files ++ [⟨p, f⟩]) evs := by
  conv_lhs => unfold loopRun
  rw [hr, hex, hf]
  simp

theorem loopRun_skip_none (env : Env) (ns : List Char) (fuel p : Nat)
    (dir : List (List Char)) (ex : List Nat) (files : List Entry) (evs : List Ev)
    (hr : env.resume = true) (hex : ex.contains p = true)
    (hf : find_existing_file ns p dir = none) :
    loopRun env ns (fuel + 1) p dir ex files evs
      = loopRun env ns fuel (p + 1) dir ex files evs := by
  conv_lhs => unfold loopRun
  rw [hr, hex, hf]
  simp

theorem loopRun_jump_fail (env : Env) (ns : List Char) (fuel p : Nat)
    (dir : List (List Char)) (ex : List Nat) (files : List Entry) (evs : List Ev)
    (hskip : (env.resume && ex.contains p) = false) (hp : 1 < p)
    (hj : jump_to_page (env.jump p) p = false) :
    loopRun env ns (fuel + 1) p dir ex files evs
      = ⟨files, evs ++ [Ev.jump p], dir, false⟩ := by
  conv_lhs => unfold loopRun
  rw [hskip, hj]
  simp [hp]

/-- Abbreviation for the events after the jump-then-select prelude. -/
def evsSel (evs : List Ev) (p : Nat) : List Ev :=
  (if 1 < p then evs ++ [Ev.jump p] else evs) ++ [Ev.select p]

theorem loopRun_sel0 (env : Env) (ns : List Char) (fuel p : Nat)
    (dir : List (List Char)) (ex : List Nat) (files : List Entry) (evs : List Ev)
    (hskip : (env.resume && ex.contains p) = false)
    (hj : p ≤ 1 ∨ jump_to_page (env.jump p) p = true)
    (h0 : env.selCount p = 0) :
    loopRun env ns (fuel + 1) p dir ex files evs
      = ⟨files, evsSel evs p, dir, false⟩ := by
  unfold loopRun
  rw [hskip]
  rcases hj with hj | hj
  · simp [evsSel, h0, show ¬(p > 1) by omega]
  · rw [hj]
    simp only [Bool.not_true, Bool.and_false, Bool.false_eq_true, if_false]
    simp [evsSel, h0]

/-- One unfolding of the loop at a page that is processed (not skipped,
and whose jump, if any, succeeded). -/
theorem loopRun_proc (env : Env) (ns : List Char) (fuel p : Nat)
    (dir : List (List Char)) (ex : List Nat) (files : List Entry) (evs : List Ev)
    (hskip : (env.resume && ex.contains p) = false)
    (hj : p ≤ 1 ∨ jump_to_page (env.jump p) p = true) :
    loopRun env ns (fuel + 1) p dir ex files evs =
      if env.selCount p = 0 then ⟨files, evsSel evs p, dir, false⟩
      else match env.sendToStep p with
      | .exn => ⟨files, evsSel evs p ++ [Ev.sendTo p], dir, true⟩
      | .fail => ⟨files, evsSel evs p ++ [Ev.sendTo p], dir, false⟩
      | .ok => match env.codingStep p with
        | .exn => ⟨files, evsSel evs p ++ [Ev.sendTo p, Ev.coding p], dir, true⟩
        | .fail => ⟨files, evsSel evs p ++ [Ev.sendTo p, Ev.coding p], dir, false⟩
        | .ok => match env.download p with
          | some ext => loopRun env ns fuel (p + 1)
              (applyRename dir (canonicalName ns p ext))
              (if env.resume then ex ++ [p] else ex)
              (files ++ [⟨p, canonicalName ns p ext⟩])
              (evsSel evs p ++ [Ev.sendTo p, Ev.coding p, Ev.exportTrigger p,
                Ev.closeTabs p, Ev.deselect p])
          | none => loopRun env ns fuel (p + 1) dir ex files
              (evsSel evs p ++ [Ev.sendTo p, Ev.coding p, Ev.exportTrigger p,
                Ev.closeTabs p, Ev.deselect p]) := by
  conv_lhs => unfold loopRun
  rw [hskip]
  have hjj : (decide (p > 1) && !jump_to_page (env.jump p) p) = false := by
    rcases hj with hj | hj
    · simp [show ¬(p > 1) by omega]
    · simp [hj]
  rw [hjj]
  simp only [Bool.false_eq_true, if_false]
  have hsel : (if 1 < p then evs ++ [Ev.jump p] else evs) ++ [Ev.select p]
      = evsSel evs p := rfl
  by_cases h0 : env.selCount p = 0
  · simp [h0, evsSel]
  · cases hs : env.sendToStep p with
    | exn => simp [h0, hs, evsSel, List.append_assoc]
    | fail => simp [h0, hs, evsSel, List.append_assoc]
    | ok =>
      cases hc : env.codingStep p with
      | exn => simp [h0, hs, hc, evsSel, List.append_assoc]
      | fail => simp [h0, hs, hc, evsSel, List.append_assoc]
      | ok =>
        cases hd : env.download p with
        | some ext => simp [h0, hs, hc, hd, evsSel, List.append_assoc]
        | none => simp [h0, hs, hc, hd, evsSel, List.append_assoc]

/-! ### Accumulation invariants of the loop -/

theorem jump_cases (env : Env) (p : Nat)
    (hjf : ¬(1 < p ∧ jump_to_page (env.jump p) p = false)) :
    p ≤ 1 ∨ jump_to_page (env.jump p) p = true := by
  by_cases hb : jump_to_page (env.jump p) p = true
  · exact Or.inr hb
  · left
    by_cases hp1 : 1 < p
    · exact absurd ⟨hp1, by revert hb; cases jump_to_page (env.jump p) p <;> simp⟩ hjf
    · omega

theorem loopRun_files_extend (env : Env) (ns : List Char) :
    ∀ fuel p dir ex files evs,
      ∃ t, (loopRun env ns fuel p dir ex files evs).files = files ++ t := by
  intro fuel
  induction fuel with
  | zero =>
    intro p dir ex files evs
    exact ⟨[], by simp [loopRun]⟩
  | succ n ih =>
    intro p dir ex files evs
    by_cases hskip : (env.resume && ex.contains p) = true
    · obtain ⟨hr, hex⟩ : env.resume = true ∧ ex.contains p = true := by
        simpa using hskip
      cases hf : find_existing_file ns p dir with
      | some f =>
        rw [loopRun_skip_found env ns n p dir ex files evs f hr hex hf]
        obtain ⟨t, ht⟩ := ih (p + 1) dir ex (files ++ [⟨p, f⟩]) evs
        exact ⟨⟨p, f⟩ :: t, by rw [ht]; simp⟩
      | none =>
        rw [loopRun_skip_none env ns n p dir ex files evs hr hex hf]
        exact ih (p + 1) dir ex files evs
    · have hskip' : (env.resume && ex.contains p) = false := by
        revert hskip; cases (env.resume && ex.contains p) <;> simp
      by_cases hjf : 1 < p ∧ jump_to_page (env.jump p) p = false
      · rw [loopRun_jump_fail env ns n p dir ex files evs hskip' hjf.1 hjf.2]
        exact ⟨[], by simp⟩
      · rw [loopRun_proc env ns n p dir ex files evs hskip' (jump_cases env p hjf)]
        by_cases h0 : env.selCount p = 0
        · rw [if_pos h0]; exact ⟨[], by simp⟩
        · rw [if_neg h0]
          cases hs : env.sendToStep p with
          | exn => exact ⟨[], by simp⟩
          | fail => exact ⟨[], by simp⟩
          | ok =>
            cases hc : env.codingStep p with
            | exn => exact ⟨[], by simp⟩
            | fail => exact ⟨[], by simp⟩
            | ok =>
              cases hd : env.download p with
              | some ext =>
                obtain ⟨t, ht⟩ := ih (p + 1) (applyRename dir (canonicalName ns p ext))
                  (if env.resume then ex ++ [p] else ex)
                  (files ++ [⟨p, canonicalName ns p ext⟩])
                  (evsSel evs p ++ [Ev.sendTo p, Ev.coding p, Ev.exportTrigger p,
                    Ev.closeTabs p, Ev.deselect p])
                exact ⟨⟨p, canonicalName ns p ext⟩ :: t, by rw [ht]; simp⟩
              | none =>
                exact ih (p + 1) dir ex files _

theorem loopRun_events_mem (env : Env) (ns : List Char) (e : Ev) :
    ∀ fuel p dir ex files evs, e ∈ evs →
      e ∈ (loopRun env ns fuel p dir ex files evs).events := by
  intro fuel
  induction fuel with
  | zero =>
    intro p dir ex files evs he
    simpa [loopRun] using he
  | succ n ih =>
    intro p dir ex files evs he
    have heSel : e ∈ evsSel evs p ++ [Ev.sendTo p, Ev.coding p, Ev.exportTrigger p,
        Ev.closeTabs p, Ev.deselect p] := by
      apply List.mem_append_left
      unfold evsSel
      by_cases h1 : 1 < p <;> simp [h1, he]
    by_cases hskip : (env.resume && ex.contains p) = true
    · obtain ⟨hr, hex⟩ : env.resume = true ∧ ex.contains p = true := by
        simpa using hskip
      cases hf : find_existing_file ns p dir with
      | some f =>
        rw [loopRun_skip_found env ns n p dir ex files evs f hr hex hf]
        exact ih (p + 1) dir ex (files ++ [⟨p, f⟩]) evs he
      | none =>
        rw [loopRun_skip_none env ns n p dir ex files evs hr hex hf]
        exact ih (p + 1) dir ex files evs he
    · have hskip' : (env.resume && ex.contains p) = false := by
        revert hskip; cases (env.resume && ex.contains p) <;> simp
      by_cases hjf : 1 < p ∧ jump_to_page (env.jump p) p = false
      · rw [loopRun_jump_fail env ns n p dir ex files evs hskip' hjf.1 hjf.2]
        exact List.mem_append_left _ he
      · rw [loopRun_proc env ns n p dir ex files evs hskip' (jump_cases env p hjf)]
        have heSel' : e ∈ evsSel evs p := by
          unfold evsSel
          by_cases h1 : 1 < p <;> simp [h1, he]
        by_cases h0 : env.selCount p = 0
        · rw [if_pos h0]; exact heSel'
        · rw [if_neg h0]
          cases hs : env.sendToStep p with
          | exn => exact List.mem_append_left _ heSel'
          | fail => exact List.mem_append_left _ heSel'
          | ok =>
            cases hc : env.codingStep p with
            | exn => exact List.mem_append_left _ heSel'
            | fail => exact List.mem_append_left _ heSel'
            | ok =>
              cases hd : env.download p with
              | some ext => exact ih (p + 1) _ _ _ _ heSel
              | none => exact ih (p + 1) _ _ _ _ heSel

/-! ### The resume set mirrors the scanned directory -/

/-- `ex` holds exactly the pages the scan regex recognizes in `dir`. -/
def exMatches (ex : List Nat) (ns : List Char) (dir : List (List Char)) : Prop :=
  ∀ q, ex.contains q = true ↔ q ∈ scan_existing_files ns dir

/-- `env.download` only ever produces well-formed extensions. -/
def extVals (env : Env) : Prop :=
  ∀ p ext, env.download p = some ext → extOk ext = true

theorem mem_scan_of_mem (ns : List Char) (dir : List (List Char))
    (f : List Char) (v : Nat) (hf : f ∈ dir) (hs : scanPageOf ns f = some v) :
    v ∈ scan_existing_files ns dir := by
  unfold scan_existing_files
  exact List.mem_filterMap.mpr ⟨f, hf, hs⟩

theorem scan_append (ns : List Char) (d₁ d₂ : List (List Char)) :
    scan_existing_files ns (d₁ ++ d₂)
      = scan_existing_files ns d₁ ++ scan_existing_files ns d₂ :=
  List.filterMap_append d₁ d₂ (scanPageOf ns)

theorem canon_not_mem (ns : List Char) (p : Nat) (ext : List Char)
    (dir : List (List Char)) (hx : extOk ext = true)
    (hns : p ∉ scan_existing_files ns dir) : canonicalName ns p ext ∉ dir := by
  intro hmem
  exact hns (mem_scan_of_mem ns dir _ p hmem (scanPageOf_canonical ns p ext hx))

theorem applyRename_not_mem (dir : List (List Char)) (canon : List Char)
    (h : canon ∉ dir) : applyRename dir canon = dir ++ [canon] := by
  unfold applyRename
  congr 1
  apply List.filter_eq_self.mpr
  intro a ha
  simp only [Bool.not_eq_true']
  cases hb : a == canon with
  | false => rfl
  | true => exact absurd (by rw [← eq_of_beq hb]; exact ha) h

theorem scan_singleton_canonical (ns : List Char) (p : Nat) (ext : List Char)
    (hx : extOk ext = true) :
    scan_existing_files ns [canonicalName ns p ext] = [p] := by
  unfold scan_existing_files
  simp [List.filterMap_cons, scanPageOf_canonical ns p ext hx]

theorem exMatches_grow (ex : List Nat) (ns : List Char) (dir : List (List Char))
    (p : Nat) (ext : List Char) (hx : extOk ext = true)
    (hm : exMatches ex ns dir) :
    exMatches (ex ++ [p]) ns (dir ++ [canonicalName ns p ext]) := by
  intro q
  rw [scan_append, scan_singleton_canonical ns p ext hx]
  have h1 : ((ex ++ [p]).contains q = true) ↔ (q ∈ ex ∨ q = p) := by
    rw [List.elem_iff]
    simp [List.mem_append]
  rw [h1, List.mem_append]
  constructor
  · rintro (hq | hq)
    · exact Or.inl ((hm q).mp (List.elem_iff.mpr hq))
    · right; simp [hq]
  · rintro (hq | hq)
    · exact Or.inl (List.elem_iff.mp ((hm q).mpr hq))
    · right; simpa using hq

/-- The loop only ever appends canonical filenames of pages at or after the
current one to the download directory. -/
theorem loopRun_dir_extend (env : Env) (ns : List Char)
    (hr : env.resume = true) (hext : extVals env) :
    ∀ fuel p dir ex files evs, exMatches ex ns dir →
      ∃ extra, (loopRun env ns fuel p dir ex files evs).dir = dir ++ extra ∧
        ∀ c ∈ extra, ∃ q e, p ≤ q ∧ env.download q = some e ∧ extOk e = true ∧
          c = canonicalName ns q e := by
  intro fuel
  induction fuel with
  | zero =>
    intro p dir ex files evs hm
    exact ⟨[], by simp [loopRun], by simp⟩
  | succ n ih =>
    intro p dir ex files evs hm
    by_cases hskip : (env.resume && ex.contains p) = true
    · obtain ⟨hr', hex⟩ : env.resume = true ∧ ex.contains p = true := by
        simpa using hskip
      have weaken : ∀ extra : List (List Char),
          (∀ c ∈ extra, ∃ q e, p + 1 ≤ q ∧ env.download q = some e ∧
            extOk e = true ∧ c = canonicalName ns q e) →
          ∀ c ∈ extra, ∃ q e, p ≤ q ∧ env.download q = some e ∧
            extOk e = true ∧ c = canonicalName ns q e := by
        intro extra hall c hc
        obtain ⟨q, e, hq, h2, h3, h4⟩ := hall c hc
        exact ⟨q, e, by omega, h2, h3, h4⟩
      cases hf : find_existing_file ns p dir with
      | some f =>
        rw [loopRun_skip_found env ns n p dir ex files evs f hr' hex hf]
        obtain ⟨extra, h1, h2⟩ := ih (p + 1) dir ex (files ++ [⟨p, f⟩]) evs hm
        exact ⟨extra, h1, weaken extra h2⟩
      | none =>
        rw [loopRun_skip_none env ns n p dir ex files evs hr' hex hf]
        obtain ⟨extra, h1, h2⟩ := ih (p + 1) dir ex files evs hm
        exact ⟨extra, h1, weaken extra h2⟩
    · have hskip' : (env.resume && ex.contains p) = false := by
        revert hskip; cases (env.resume && ex.contains p) <;> simp
      have hcon : ex.contains p = false := by
        rw [hr] at hskip'; simpa using hskip'
      have hnotscan : p ∉ scan_existing_files ns dir := by
        intro hmem
        rw [(hm p).mpr hmem] at hcon
        exact absurd hcon (by simp)
      by_cases hjf : 1 < p ∧ jump_to_page (env.jump p) p = false
      · rw [loopRun_jump_fail env ns n p dir ex files evs hskip' hjf.1 hjf.2]
        exact ⟨[], by simp, by simp⟩
      · rw [loopRun_proc env ns n p dir ex files evs hskip' (jump_cases env p hjf)]
        by_cases h0 : env.selCount p = 0
        · rw [if_pos h0]; exact ⟨[], by simp, by simp⟩
        · rw [if_neg h0]
          cases hs : env.sendToStep p with
          | exn => exact ⟨[], by simp, by simp⟩
          | fail => exact ⟨[], by simp, by simp⟩
          | ok =>
            cases hc : env.codingStep p with
            | exn => exact ⟨[], by simp, by simp⟩
            | fail => exact ⟨[], by simp, by simp⟩
            | ok =>
              cases hd : env.download p with
              | some ext =>
                have hx : extOk ext = true := hext p ext hd
                have hren : applyRename dir (canonicalName ns p ext)
                    = dir ++ [canonicalName ns p ext] :=
                  applyRename_not_mem dir _ (canon_not_mem ns p ext dir hx hnotscan)
                dsimp only
                rw [hren, hr]
                rw [show (if (true : Bool) = true then ex ++ [p] else ex)
                    = ex ++ [p] from rfl]
                obtain ⟨extra, h1, h2⟩ := ih (p + 1)
                  (dir ++ [canonicalName ns p ext]) (ex ++ [p])
                  (files ++ [⟨p, canonicalName ns p ext⟩])
                  (evsSel evs p ++ [Ev.sendTo p, Ev.coding p, Ev.exportTrigger p,
                    Ev.closeTabs p, Ev.deselect p])
                  (exMatches_grow ex ns dir p ext hx hm)
                refine ⟨canonicalName ns p ext :: extra, by rw [h1]; simp, ?_⟩
                intro c hcm
                rcases List.mem_cons.mp hcm with hc1 | hc1
                · exact ⟨p, ext, Nat.le_refl p, hd, hx, hc1⟩
                · obtain ⟨q, e, hq, hh2, hh3, hh4⟩ := h2 c hc1
                  exact ⟨q, e, by omega, hh2, hh3, hh4⟩
              | none =>
                obtain ⟨extra, h1, h2⟩ := ih (p + 1) dir ex files
                  (evsSel evs p ++ [Ev.sendTo p, Ev.coding p, Ev.exportTrigger p,
                    Ev.closeTabs p, Ev.deselect p]) hm
                refine ⟨extra, h1, ?_⟩
                intro c hcm
                obtain ⟨q, e, hq, hh2, hh3, hh4⟩ := h2 c hcm
                exact ⟨q, e, by omega, hh2, hh3, hh4⟩

/-! ### Events of a page under processing, and absence of events for
already-done pages -/

theorem mem_page_events (e : Ev) (evs : List Ev) (p : Nat) (tail : List Ev)
    (htail : ∀ x ∈ tail, evPage x = p) (h : e ∈ evsSel evs p ++ tail) :
    e ∈ evs ∨ evPage e = p := by
  rcases List.mem_append.mp h with h1 | h1
  · unfold evsSel at h1
    rcases List.mem_append.mp h1 with h2 | h2
    · by_cases hp : 1 < p
      · rw [if_pos hp] at h2
        rcases List.mem_append.mp h2 with h3 | h3
        · exact Or.inl h3
        · right; simp at h3; rw [h3]; rfl
      · rw [if_neg hp] at h2; exact Or.inl h2
    · right; simp at h2; rw [h2]; rfl
  · exact Or.inr (htail e h1)

theorem loopRun_no_events_for_done (env : Env) (ns : List Char) (q : Nat)
    (hr : env.resume = true) :
    ∀ fuel p dir ex files evs, ex.contains q = true →
      ∀ e ∈ (loopRun env ns fuel p dir ex files evs).events,
        e ∈ evs ∨ evPage e ≠ q := by
  intro fuel
  induction fuel with
  | zero =>
    intro p dir ex files evs _ e he
    exact Or.inl (by simpa [loopRun] using he)
  | succ n ih =>
    intro p dir ex files evs hq e he
    by_cases hskip : (env.resume && ex.contains p) = true
    · obtain ⟨hr', hex⟩ : env.resume = true ∧ ex.contains p = true := by
        simpa using hskip
      cases hf : find_existing_file ns p dir with
      | some f =>
        rw [loopRun_skip_found env ns n p dir ex files evs f hr' hex hf] at he
        exact ih (p + 1) dir ex (files ++ [⟨p, f⟩]) evs hq e he
      | none =>
        rw [loopRun_skip_none env ns n p dir ex files evs hr' hex hf] at he
        exact ih (p + 1) dir ex files evs hq e he
    · have hskip' : (env.resume && ex.contains p) = false := by
        revert hskip; cases (env.resume && ex.contains p) <;> simp
      have hcon : ex.contains p = false := by
        rw [hr] at hskip'; simpa using hskip'
      have hpq : p ≠ q := by
        intro hh; rw [hh, hq] at hcon; exact absurd hcon (by simp)
      by_cases hjf : 1 < p ∧ jump_to_page (env.jump p) p = false
      · rw [loopRun_jump_fail env ns n p dir ex files evs hskip' hjf.1 hjf.2] at he
        rcases List.mem_append.mp he with h1 | h1
        · exact Or.inl h1
        · right; simp at h1; rw [h1]; exact hpq
      · rw [loopRun_proc env ns n p dir ex files evs hskip' (jump_cases env p hjf)] at he
        have tailWhole : ∀ x ∈ [Ev.sendTo p, Ev.coding p, Ev.exportTrigger p,
            Ev.closeTabs p, Ev.deselect p], evPage x = p := by
          intro x hx
          fin_cases hx <;> rfl
        have tail1 : ∀ x ∈ [Ev.sendTo p], evPage x = p := by
          intro x hx
          fin_cases hx
          rfl
        have tail2 : ∀ x ∈ [Ev.sendTo p, Ev.coding p], evPage x = p := by
          intro x hx
          fin_cases hx <;> rfl
        have finish : ∀ tail : List Ev, (∀ x ∈ tail, evPage x = p) →
            e ∈ evsSel evs p ++ tail → e ∈ evs ∨ evPage e ≠ q := by
          intro tail htail hcc
          rcases mem_page_events e evs p tail htail hcc with h1 | h1
          · exact Or.inl h1
          · right; rw [h1]; exact hpq
        by_cases h0 : env.selCount p = 0
        · rw [if_pos h0] at he
          exact finish [] (by simp) (by simpa using he)
        · rw [if_neg h0] at he
          cases hs : env.sendToStep p with
          | exn =>
            rw [hs] at he; dsimp only at he
            exact finish [Ev.sendTo p] tail1 he
          | fail =>
            rw [hs] at he; dsimp only at he
            exact finish [Ev.sendTo p] tail1 he
          | ok =>
            rw [hs] at he; dsimp only at he
            cases hc : env.codingStep p with
            | exn =>
              rw [hc] at he; dsimp only at he
              exact finish [Ev.sendTo p, Ev.coding p] tail2 he
            | fail =>
              rw [hc] at he; dsimp only at he
              exact finish [Ev.sendTo p, Ev.coding p] tail2 he
            | ok =>
              rw [hc] at he; dsimp only at he
              have hcontq : (ex ++ [p]).contains q = true :=
                List.elem_iff.mpr (List.mem_append_left _ (List.elem_iff.mp hq))
              cases hd : env.download p with
              | some ext =>
                rw [hd] at he; dsimp only at he
                rw [hr] at he
                rw [show (if (true : Bool) = true then ex ++ [p] else ex)
                    = ex ++ [p] from rfl] at he
                have hrec := ih (p + 1) (applyRename dir (canonicalName ns p ext))
                  (ex ++ [p])
                  (files ++ [⟨p, canonicalName ns p ext⟩])
                  (evsSel evs p ++ [Ev.sendTo p, Ev.coding p, Ev.exportTrigger p,
                    Ev.closeTabs p, Ev.deselect p])
                  hcontq e he
                rcases hrec with h1 | h1
                · exact finish _ tailWhole h1
                · exact Or.inr h1
              | none =>
                rw [hd] at he; dsimp only at he
                have hrec := ih (p + 1) dir ex files
                  (evsSel evs p ++ [Ev.sendTo p, Ev.coding p, Ev.exportTrigger p,
                    Ev.closeTabs p, Ev.deselect p]) hq e he
                rcases hrec with h1 | h1
                · exact finish _ tailWhole h1
                · exact Or.inr h1

/-! ### Strict monotonicity of the captured page list -/

theorem chain_snoc (l : List Nat) (a : Nat) (h : List.Chain' (· < ·) l)
    (h2 : ∀ x ∈ l, x < a) : List.Chain' (· < ·) (l ++ [a]) := by
  rw [List.chain'_append]
  refine ⟨h, List.chain'_singleton a, ?_⟩
  intro x hx y hy
  simp at hy
  subst hy
  exact h2 x (List.mem_of_mem_getLast? hx)

theorem loopRun_chain (env : Env) (ns : List Char) :
    ∀ fuel p dir ex files evs,
      (∀ x ∈ files, x.page < p) → List.Chain' (· < ·) (files.map Entry.page) →
      List.Chain' (· < ·)
        ((loopRun env ns fuel p dir ex files evs).files.map Entry.page) := by
  intro fuel
  induction fuel with
  | zero =>
    intro p dir ex files evs _ hch
    simpa [loopRun] using hch
  | succ n ih =>
    intro p dir ex files evs hbound hch
    have hbound1 : ∀ x ∈ files, x.page < p + 1 := by
      intro x hx; exact Nat.lt_succ_of_lt (hbound x hx)
    have hsnoc : ∀ path : List Char,
        (∀ x ∈ files ++ [⟨p, path⟩], x.page < p + 1) ∧
        List.Chain' (· < ·) ((files ++ [(⟨p, path⟩ : Entry)]).map Entry.page) := by
      intro path
      constructor
      · intro x hx
        rcases List.mem_append.mp hx with h1 | h1
        · exact Nat.lt_succ_of_lt (hbound x h1)
        · simp at h1
          rw [h1]
          show p < p + 1
          omega
      · rw [List.map_append]
        exact chain_snoc _ p hch (by
          intro x hx
          obtain ⟨y, hy, hxy⟩ := List.mem_map.mp hx
          rw [← hxy]; exact hbound y hy)
    by_cases hskip : (env.resume && ex.contains p) = true
    · obtain ⟨hr', hex⟩ : env.resume = true ∧ ex.contains p = true := by
        simpa using hskip
      cases hf : find_existing_file ns p dir with
      | some f =>
        rw [loopRun_skip_found env ns n p dir ex files evs f hr' hex hf]
        exact ih (p + 1) dir ex _ evs (hsnoc f).1 (hsnoc f).2
      | none =>
        rw [loopRun_skip_none env ns n p dir ex files evs hr' hex hf]
        exact ih (p + 1) dir ex files evs hbound1 hch
    · have hskip' : (env.resume && ex.contains p) = false := by
        revert hskip; cases (env.resume && ex.contains p) <;> simp
      by_cases hjf : 1 < p ∧ jump_to_page (env.jump p) p = false
      · rw [loopRun_jump_fail env ns n p dir ex files evs hskip' hjf.1 hjf.2]
        exact hch
      · rw [loopRun_proc env ns n p dir ex files evs hskip' (jump_cases env p hjf)]
        by_cases h0 : env.selCount p = 0
        · rw [if_pos h0]; exact hch
        · rw [if_neg h0]
          cases hs : env.sendToStep p with
          | exn => exact hch
          | fail => exact hch
          | ok =>
            cases hc : env.codingStep p with
            | exn => exact hch
            | fail => exact hch
            | ok =>
              cases hd : env.download p with
              | some ext =>
                exact ih (p + 1) _ _ _ _ (hsnoc (canonicalName ns p ext)).1
                  (hsnoc (canonicalName ns p ext)).2
              | none => exact ih (p + 1) dir ex files _ hbound1 hch

/-! ### Find/scan agreement across directory growth -/

theorem contains_of_mem {l : List Nat} {a : Nat} (h : a ∈ l) :
    l.contains a = true := List.elem_iff.mpr h

theorem contains_false_of_not_mem {l : List Nat} {a : Nat} (h : a ∉ l) :
    l.contains a = false := by
  cases hc : l.contains a with
  | false => rfl
  | true => exact absurd (List.elem_iff.mp hc) h

/-- Canonical files of pages other than `p` never disturb the find pattern
for `p`. -/
theorem find_extra_none (ns : List Char) (p : Nat) (extra : List (List Char))
    (hall : ∀ c ∈ extra, ∃ q e, q ≠ p ∧ extOk e = true ∧ c = canonicalName ns q e) :
    List.find? (findMatch ns p) extra = none := by
  apply List.find?_eq_none.mpr
  intro c hc hmatch
  obtain ⟨q, e, hq, hx, rfl⟩ := hall c hc
  rw [findMatch_canonical_ne ns p q e hx hq] at hmatch
  exact absurd hmatch (by simp)

theorem find_agree (ns : List Char) (p : Nat) (dir extra : List (List Char))
    (hall : ∀ c ∈ extra, ∃ q e, q ≠ p ∧ extOk e = true ∧ c = canonicalName ns q e) :
    find_existing_file ns p (dir ++ extra) = find_existing_file ns p dir := by
  unfold find_existing_file
  rw [List.find?_append, find_extra_none ns p extra hall]
  cases hf : List.find? (findMatch ns p) dir <;> simp [Option.or]

theorem find_none_of_not_scanned (ns : List Char) (p : Nat)
    (dir : List (List Char)) (h : p ∉ scan_existing_files ns dir) :
    find_existing_file ns p dir = none := by
  apply List.find?_eq_none.mpr
  intro f hf hmatch
  exact h (mem_scan_of_mem ns dir f p hf (findMatch_imp_scan ns p f hmatch))

theorem scan_extra_not_mem (ns : List Char) (p : Nat)
    (dir extra : List (List Char)) (hdir : p ∉ scan_existing_files ns dir)
    (hall : ∀ c ∈ extra, ∃ q e, q ≠ p ∧ extOk e = true ∧ c = canonicalName ns q e) :
    p ∉ scan_existing_files ns (dir ++ extra) := by
  rw [scan_append]
  intro hmem
  rcases List.mem_append.mp hmem with h1 | h1
  · exact hdir h1
  · obtain ⟨c, hc, hscan⟩ := List.mem_filterMap.mp h1
    obtain ⟨q, e, hq, hx, rfl⟩ := hall c hc
    rw [scanPageOf_canonical ns q e hx] at hscan
    exact hq (Option.some.inj hscan)

theorem extras_ne (env : Env) (ns : List Char) (p : Nat)
    (extra : List (List Char))
    (h : ∀ c ∈ extra, ∃ q e, p + 1 ≤ q ∧ env.download q = some e ∧
      extOk e = true ∧ c = canonicalName ns q e) :
    ∀ c ∈ extra, ∃ q e, q ≠ p ∧ extOk e = true ∧ c = canonicalName ns q e := by
  intro c hc
  obtain ⟨q, e, hq, -, hx, hcc⟩ := h c hc
  exact ⟨q, e, by omega, hx, hcc⟩

/-- Rerunning the loop from any aligned state, against the directory the
first run left behind and with the resume set rescanned from it, reproduces
exactly the first run's tail of captured files, leaves the directory
untouched, and raises exactly when the first run raised. -/
theorem loopRun_idem (env : Env) (ns : List Char)
    (hr : env.resume = true) (hext : extVals env) :
    ∀ fuel p dir ex files₁ evs₁ files₂ evs₂, exMatches ex ns dir →
      (loopRun env ns fuel p (loopRun env ns fuel p dir ex files₁ evs₁).dir
          (scan_existing_files ns (loopRun env ns fuel p dir ex files₁ evs₁).dir)
          files₂ evs₂).files
        = files₂ ++ ((loopRun env ns fuel p dir ex files₁ evs₁).files.drop
            files₁.length)
      ∧ (loopRun env ns fuel p (loopRun env ns fuel p dir ex files₁ evs₁).dir
          (scan_existing_files ns (loopRun env ns fuel p dir ex files₁ evs₁).dir)
          files₂ evs₂).dir = (loopRun env ns fuel p dir ex files₁ evs₁).dir
      ∧ (loopRun env ns fuel p (loopRun env ns fuel p dir ex files₁ evs₁).dir
          (scan_existing_files ns (loopRun env ns fuel p dir ex files₁ evs₁).dir)
          files₂ evs₂).raised = (loopRun env ns fuel p dir ex files₁ evs₁).raised := by
  intro fuel
  induction fuel with
  | zero =>
    intro p dir ex files₁ evs₁ files₂ evs₂ hm
    simp [loopRun]
  | succ n ih =>
    intro p dir ex files₁ evs₁ files₂ evs₂ hm
    by_cases hskip : (env.resume && ex.contains p) = true
    · obtain ⟨hr', hex⟩ : env.resume = true ∧ ex.contains p = true := by
        simpa using hskip
      have hpscan : p ∈ scan_existing_files ns dir := (hm p).mp hex
      cases hf : find_existing_file ns p dir with
      | some f =>
        rw [loopRun_skip_found env ns n p dir ex files₁ evs₁ f hr' hex hf]
        obtain ⟨extra, hdx, hprops⟩ := loopRun_dir_extend env ns hr hext n (p + 1)
          dir ex (files₁ ++ [⟨p, f⟩]) evs₁ hm
        have hp2 : (scan_existing_files ns
            (loopRun env ns n (p + 1) dir ex (files₁ ++ [⟨p, f⟩]) evs₁).dir).contains p
              = true := by
          apply contains_of_mem
          rw [hdx, scan_append]
          exact List.mem_append_left _ hpscan
        have hfind2 : find_existing_file ns p
            (loopRun env ns n (p + 1) dir ex (files₁ ++ [⟨p, f⟩]) evs₁).dir = some f := by
          rw [hdx, find_agree ns p dir extra (extras_ne env ns p extra hprops)]
          exact hf
        rw [loopRun_skip_found env ns n p _ _ files₂ evs₂ f hr hp2 hfind2]
        obtain ⟨ihf, ihd, ihr⟩ := ih (p + 1) dir ex (files₁ ++ [⟨p, f⟩]) evs₁
          (files₂ ++ [⟨p, f⟩]) evs₂ hm
        refine ⟨?_, ihd, ihr⟩
        rw [ihf]
        obtain ⟨t, ht⟩ := loopRun_files_extend env ns n (p + 1) dir ex
          (files₁ ++ [⟨p, f⟩]) evs₁
        rw [ht, List.drop_left, List.append_assoc files₁ [⟨p, f⟩] t, List.drop_left]
        simp [List.append_assoc]
      | none =>
        rw [loopRun_skip_none env ns n p dir ex files₁ evs₁ hr' hex hf]
        obtain ⟨extra, hdx, hprops⟩ := loopRun_dir_extend env ns hr hext n (p + 1)
          dir ex files₁ evs₁ hm
        have hp2 : (scan_existing_files ns
            (loopRun env ns n (p + 1) dir ex files₁ evs₁).dir).contains p = true := by
          apply contains_of_mem
          rw [hdx, scan_append]
          exact List.mem_append_left _ hpscan
        have hfind2 : find_existing_file ns p
            (loopRun env ns n (p + 1) dir ex files₁ evs₁).dir = none := by
          rw [hdx, find_agree ns p dir extra (extras_ne env ns p extra hprops)]
          exact hf
        rw [loopRun_skip_none env ns n p _ _ files₂ evs₂ hr hp2 hfind2]
        exact ih (p + 1) dir ex files₁ evs₁ files₂ evs₂ hm
    · have hskip' : (env.resume && ex.contains p) = false := by
        revert hskip; cases (env.resume && ex.contains p) <;> simp
      have hcon : ex.contains p = false := by
        rw [hr] at hskip'; simpa using hskip'
      have hnotscan : p ∉ scan_existing_files ns dir := by
        intro hmem
        rw [(hm p).mpr hmem] at hcon
        exact absurd hcon (by simp)
      by_cases hjf : 1 < p ∧ jump_to_page (env.jump p) p = false
      · rw [loopRun_jump_fail env ns n p dir ex files₁ evs₁ hskip' hjf.1 hjf.2]
        have hskip₂ : (env.resume
            && (scan_existing_files ns
              (RunOut.mk files₁ (evs₁ ++ [Ev.jump p]) dir false).dir).contains p)
            = false := by
          dsimp only
          rw [contains_false_of_not_mem hnotscan]
          simp
        rw [loopRun_jump_fail env ns n p _ _ files₂ evs₂ hskip₂ hjf.1 hjf.2]
        simp
      · have hj := jump_cases env p hjf
        rw [loopRun_proc env ns n p dir ex files₁ evs₁ hskip' hj]
        have hskip₂dir : (env.resume
            && (scan_existing_files ns dir).contains p) = false := by
          rw [contains_false_of_not_mem hnotscan]
          simp
        by_cases h0 : env.selCount p = 0
        · rw [if_pos h0]
          dsimp only
          rw [loopRun_proc env ns n p dir _ files₂ evs₂ hskip₂dir hj, if_pos h0]
          simp
        · rw [if_neg h0]
          cases hs : env.sendToStep p with
          | exn =>
            dsimp only
            rw [loopRun_proc env ns n p dir _ files₂ evs₂ hskip₂dir hj, if_neg h0, hs]
            simp
          | fail =>
            dsimp only
            rw [loopRun_proc env ns n p dir _ files₂ evs₂ hskip₂dir hj, if_neg h0, hs]
            simp
          | ok =>
            cases hc : env.codingStep p with
            | exn =>
              dsimp only
              rw [loopRun_proc env ns n p dir _ files₂ evs₂ hskip₂dir hj,
                if_neg h0, hs, hc]
              simp
            | fail =>
              dsimp only
              rw [loopRun_proc env ns n p dir _ files₂ evs₂ hskip₂dir hj,
                if_neg h0, hs, hc]
              simp
            | ok =>
              cases hd : env.download p with
              | none =>
                dsimp only
                obtain ⟨extra, hdx, hprops⟩ := loopRun_dir_extend env ns hr hext n
                  (p + 1) dir ex files₁
                  (evsSel evs₁ p ++ [Ev.sendTo p, Ev.coding p, Ev.exportTrigger p,
                    Ev.closeTabs p, Ev.deselect p]) hm
                have hnot2 : p ∉ scan_existing_files ns
                    (loopRun env ns n (p + 1) dir ex files₁
                      (evsSel evs₁ p ++ [Ev.sendTo p, Ev.coding p, Ev.exportTrigger p,
                        Ev.closeTabs p, Ev.deselect p])).dir := by
                  rw [hdx]
                  exact scan_extra_not_mem ns p dir extra hnotscan
                    (extras_ne env ns p extra hprops)
                have hskip₂ : (env.resume && (scan_existing_files ns
                    (loopRun env ns n (p + 1) dir ex files₁
                      (evsSel evs₁ p ++ [Ev.sendTo p, Ev.coding p, Ev.exportTrigger p,
                        Ev.closeTabs p, Ev.deselect p])).dir).contains p) = false := by
                  rw [contains_false_of_not_mem hnot2]
                  simp
                rw [loopRun_proc env ns n p _ _ files₂ evs₂ hskip₂ hj,
                  if_neg h0, hs, hc, hd]
                dsimp only
                exact ih (p + 1) dir ex files₁ _ files₂ _ hm
              | some ext =>
                dsimp only
                rw [hr]
                rw [show (if (true : Bool) = true then ex ++ [p] else ex)
                    = ex ++ [p] from rfl]
                have hx : extOk ext = true := hext p ext hd
                have hren : applyRename dir (canonicalName ns p ext)
                    = dir ++ [canonicalName ns p ext] :=
                  applyRename_not_mem dir _ (canon_not_mem ns p ext dir hx hnotscan)
                rw [hren]
                have hm' := exMatches_grow ex ns dir p ext hx hm
                obtain ⟨extra, hdx, hprops⟩ := loopRun_dir_extend env ns hr hext n
                  (p + 1) (dir ++ [canonicalName ns p ext]) (ex ++ [p])
                  (files₁ ++ [⟨p, canonicalName ns p ext⟩])
                  (evsSel evs₁ p ++ [Ev.sendTo p, Ev.coding p, Ev.exportTrigger p,
                    Ev.closeTabs p, Ev.deselect p]) hm'
                have hp2 : (scan_existing_files ns
                    (loopRun env ns n (p + 1) (dir ++ [canonicalName ns p ext])
                      (ex ++ [p]) (files₁ ++ [⟨p, canonicalName ns p ext⟩])
                      (evsSel evs₁ p ++ [Ev.sendTo p, Ev.coding p, Ev.exportTrigger p,
                        Ev.closeTabs p, Ev.deselect p])).dir).contains p = true := by
                  apply contains_of_mem
                  rw [hdx, scan_append, scan_append,
                    scan_singleton_canonical ns p ext hx]
                  exact List.mem_append_left _ (List.mem_append_right _ (by simp))
                have hfind2 : find_existing_file ns p
                    (loopRun env ns n (p + 1) (dir ++ [canonicalName ns p ext])
                      (ex ++ [p]) (files₁ ++ [⟨p, canonicalName ns p ext⟩])
                      (evsSel evs₁ p ++ [Ev.sendTo p, Ev.coding p, Ev.exportTrigger p,
                        Ev.closeTabs p, Ev.deselect p])).dir
                    = some (canonicalName ns p ext) := by
                  rw [hdx, List.append_assoc]
                  unfold find_existing_file
                  rw [List.find?_append,
                    show List.find? (findMatch ns p) dir = none from
                      find_none_of_not_scanned ns p dir hnotscan]
                  simp [List.find?, findMatch_canonical ns p ext hx, Option.or]
                rw [loopRun_skip_found env ns n p _ _ files₂ evs₂
                  (canonicalName ns p ext) hr hp2 hfind2]
                obtain ⟨ihf, ihd, ihr⟩ := ih (p + 1) (dir ++ [canonicalName ns p ext])
                  (ex ++ [p]) (files₁ ++ [⟨p, canonicalName ns p ext⟩])
                  (evsSel evs₁ p ++ [Ev.sendTo p, Ev.coding p, Ev.exportTrigger p,
                    Ev.closeTabs p, Ev.deselect p])
                  (files₂ ++ [⟨p, canonicalName ns p ext⟩]) evs₂ hm'
                refine ⟨?_, ihd, ihr⟩
                rw [ihf]
                obtain ⟨t, ht⟩ := loopRun_files_extend env ns n (p + 1)
                  (dir ++ [canonicalName ns p ext]) (ex ++ [p])
                  (files₁ ++ [⟨p, canonicalName ns p ext⟩])
                  (evsSel evs₁ p ++ [Ev.sendTo p, Ev.coding p, Ev.exportTrigger p,
                    Ev.closeTabs p, Ev.deselect p])
                rw [ht, List.drop_left,
                  List.append_assoc files₁ [⟨p, canonicalName ns p ext⟩] t,
                  List.drop_left]
                simp [List.append_assoc]

/-! ### Remaining small helpers -/

theorem exMatches_scan (ns : List Char) (l : List (List Char)) :
    exMatches (scan_existing_files ns l) ns l := by
  intro q
  exact List.elem_iff

theorem wait_none_aux (ns : List Char) (p : Nat) (baseline : List (List Char)) :
    ∀ polls, (∀ cur ∈ polls, (newFiles baseline cur).find? isAcceptedName = none) →
      wait_for_download ns p baseline polls = ⟨none, [], []⟩ := by
  intro polls
  induction polls with
  | nil => intro _; rfl
  | cons cur rest ih =>
    intro hnone
    unfold wait_for_download
    rw [hnone cur (List.mem_cons_self cur rest)]
    exact ih (fun cur' h => hnone cur' (List.mem_cons_of_mem cur h))

theorem tryNextButtons_iff (t : Nat) :
    ∀ bs : List (Option Nat), tryNextButtons t bs = true ↔ some t ∈ bs := by
  intro bs
  induction bs with
  | nil => simp [tryNextButtons]
  | cons b rest ih =>
    cases b with
    | none => simp [tryNextButtons, ih]
    | some n =>
      unfold tryNextButtons
      rw [Bool.or_eq_true_iff]
      constructor
      · rintro (h | h)
        · have : n = t := by simpa using h
          rw [this]
          exact List.mem_cons_self _ _
        · exact List.mem_cons_of_mem _ (ih.mp h)
      · intro h
        rcases List.mem_cons.mp h with h1 | h1
        · left; simp [Option.some.inj h1.symm]
        · right; exact ih.mpr h1

theorem findMatch_of_sfx (ns : List Char) (p : Nat) :
    ∀ t s, findTail ns p s = true → findMatch ns p (t ++ s) = true := by
  intro t
  induction t with
  | nil => intro s h; simpa using findMatch_of_findTail ns p s h
  | cons c t' ih =>
    intro s h
    rw [List.cons_append]
    unfold findMatch
    rw [ih s h, Bool.or_true]

theorem ite_tb {α : Sort _} (a b : α) :
    (if (true : Bool) = true then a else b) = a := rfl

theorem ite_fb {α : Sort _} (a b : α) :
    (if (false : Bool) = true then a else b) = b := rfl

/-! ### Concrete environments for counterexamples and witnesses -/

def nsT : List Char := ['n', 's']

/-- Send-to fails on page 1; everything else would succeed. -/
def envC1 : Env :=
  ⟨true, [], false, fun _ => ⟨true, [], true⟩, fun _ => 3,
   fun p => if p = 1 then SOut.fail else SOut.ok, fun _ => SOut.ok,
   fun _ => some ['.', 'f', 'a']⟩

/-- A directory holding a leading-zero variant of the canonical name for
page 1, and no selectable results. -/
def envC2 : Env :=
  ⟨true, [['n', 's', '_', 'p', 'a', 'g', 'e', '_', '0', '0', '1', '.',
    'f', 'a', 's', 't', 'a']], false, fun _ => ⟨true, [], true⟩, fun _ => 0,
   fun _ => SOut.ok, fun _ => SOut.ok, fun _ => none⟩

/-- Fully successful environment: every page captures a `.fa` file. -/
def envOk : Env :=
  ⟨true, [], false, fun _ => ⟨true, [], true⟩, fun _ => 1, fun _ => SOut.ok,
   fun _ => SOut.ok, fun _ => some ['.', 'f', 'a']⟩

/-- Every download times out. -/
def envTimeout : Env :=
  ⟨true, [], false, fun _ => ⟨true, [], true⟩, fun _ => 2, fun _ => SOut.ok,
   fun _ => SOut.ok, fun _ => none⟩

/-- The Send-to step raises an exception on page 2. -/
def envExn : Env :=
  ⟨true, [], false, fun _ => ⟨true, [], true⟩, fun _ => 2,
   fun p => if p = 2 then SOut.exn else SOut.ok, fun _ => SOut.ok,
   fun _ => some ['.', 'f', 'a']⟩

/-- All three page-jump strategies fail. -/
def envJumpFail : Env :=
  ⟨true, [], false, fun _ => ⟨false, [], false⟩, fun _ => 1, fun _ => SOut.ok,
   fun _ => SOut.ok, fun _ => none⟩

/-- A downloaded file whose name contains `.fa` but whose extension is
`.gz`. -/
def fGz : List Char := ['x', '.', 'f', 'a', '.', 'g', 'z']

/-! ### Claims -/

/-- C1 counterexample: the claim as stated is false.  In `envC1` the
Send-to step of page 1 fails while page 2 would have results; the claim
predicts the loop continues with page 2, but the run terminates at page 1
with no event for any later page and an empty result list. -/
theorem c1_counterexample :
    envC1.sendToStep 1 = SOut.fail ∧ envC1.selCount 2 = 3 ∧
    collect envC1 nsT 2 = ⟨[], [Ev.select 1, Ev.sendTo 1], [], false⟩ := by
  refine ⟨rfl, rfl, ?_⟩
  decide

/-- C1 (amended): if the download of page `p` times out, the failure is
logged and the loop continues with page `p + 1`; but when the export menu
cannot be opened (Send-to fails) or the export sub-type cannot be selected
(Coding-sequences fails), the whole term's collection loop terminates at
page `p`, returning the files collected so far rather than skipping only
that page. -/
theorem c1_amended (env : Env) (ns : List Char) (fuel p : Nat)
    (dir : List (List Char)) (ex : List Nat) (files : List Entry) (evs : List Ev)
    (hskip : (env.resume && ex.contains p) = false)
    (hj : p ≤ 1 ∨ jump_to_page (env.jump p) p = true)
    (h0 : env.selCount p ≠ 0) :
    (env.sendToStep p = SOut.fail →
      loopRun env ns (fuel + 1) p dir ex files evs
        = ⟨files, evsSel evs p ++ [Ev.sendTo p], dir, false⟩)
    ∧ (env.sendToStep p = SOut.ok → env.codingStep p = SOut.fail →
      loopRun env ns (fuel + 1) p dir ex files evs
        = ⟨files, evsSel evs p ++ [Ev.sendTo p, Ev.coding p], dir, false⟩)
    ∧ (env.sendToStep p = SOut.ok → env.codingStep p = SOut.ok →
        env.download p = none →
      loopRun env ns (fuel + 1) p dir ex files evs
        = loopRun env ns fuel (p + 1) dir ex files
            (evsSel evs p ++ [Ev.sendTo p, Ev.coding p, Ev.exportTrigger p,
              Ev.closeTabs p, Ev.deselect p])) := by
  refine ⟨?_, ?_, ?_⟩
  · intro hs
    rw [loopRun_proc env ns fuel p dir ex files evs hskip hj, if_neg h0, hs]
  · intro hs hc
    rw [loopRun_proc env ns fuel p dir ex files evs hskip hj, if_neg h0, hs, hc]
  · intro hs hc hd
    rw [loopRun_proc env ns fuel p dir ex files evs hskip hj, if_neg h0, hs, hc, hd]

/-- C1 witness: the amended claim evaluated at `envC1`, page 1. -/
theorem c1_witness :
    loopRun envC1 nsT 1 1 [] [] [] []
      = ⟨[], [Ev.select 1, Ev.sendTo 1], [], false⟩ := by
  have h := (c1_amended envC1 nsT 0 1 [] [] [] [] (by decide)
    (Or.inl (by decide)) (by decide)).1 rfl
  simpa [evsSel] using h

/-- C2 counterexample: the claim as stated is false.  The directory of
`envC2` holds `ns_page_001.fasta`, so the resume scan marks page 1 as done,
yet the run appends nothing for page 1 — the find pattern interpolates the
page number without leading zeros and locates no file. -/
theorem c2_counterexample :
    scan_existing_files nsT envC2.listing = [1]
    ∧ (collect envC2 nsT 1).files = []
    ∧ (collect envC2 nsT 1).events = [] := by
  refine ⟨?_, ?_, ?_⟩ <;> decide

/-- C2 (amended): when the resume set marks page `p` as done, the loop
performs zero browser interaction for `p`, and appends the first file whose
name ends with the canonical suffix writing `p` in plain decimal — when the
marking file wrote the digits with leading zeros, nothing is appended.
Consequently, provided every captured extension is well formed (as the
program's own renames produce), running the collection twice with the same
term, the same ceiling and an unchanged directory yields an identical
captured file list and directory after the second run, and the second run
triggers zero export events for pages already on disk. -/
theorem c2_amended (env : Env) (ns : List Char) (maxPages : Nat)
    (hr : env.resume = true) (hext : extVals env) :
    (∀ q, q ∈ scan_existing_files ns env.listing →
      ∀ e ∈ (collect env ns maxPages).events, evPage e ≠ q)
    ∧ (collectOn env ns maxPages (collect env ns maxPages).dir).files
        = (collect env ns maxPages).files
    ∧ (collectOn env ns maxPages (collect env ns maxPages).dir).dir
        = (collect env ns maxPages).dir
    ∧ (∀ q, q ∈ scan_existing_files ns (collect env ns maxPages).dir →
        Ev.exportTrigger q ∉
          (collectOn env ns maxPages (collect env ns maxPages).dir).events) := by
  unfold collect collectOn
  cases hn : env.navRaises with
  | true =>
    simp only [ite_tb]
    refine ⟨?_, rfl, rfl, ?_⟩
    · intro q hq e he
      simp at he
    · intro q hq hmem
      simp at hmem
  | false =>
    simp only [ite_fb]
    simp only [hr, if_true]
    refine ⟨?_, ?_, ?_, ?_⟩
    · intro q hq e he
      rcases loopRun_no_events_for_done env ns q hr maxPages 1 env.listing
        (scan_existing_files ns env.listing) [] [] (contains_of_mem hq) e he
        with h | h
      · simp at h
      · exact h
    · obtain ⟨hf, -, -⟩ := loopRun_idem env ns hr hext maxPages 1 env.listing
        (scan_existing_files ns env.listing) [] [] [] []
        (exMatches_scan ns env.listing)
      rw [hf]
      simp
    · obtain ⟨-, hd, -⟩ := loopRun_idem env ns hr hext maxPages 1 env.listing
        (scan_existing_files ns env.listing) [] [] [] []
        (exMatches_scan ns env.listing)
      exact hd
    · intro q hq hmem
      rcases loopRun_no_events_for_done env ns q hr maxPages 1 _ _ [] []
        (contains_of_mem hq) (Ev.exportTrigger q) hmem with h | h
      · simp at h
      · exact h rfl

/-- C2 witness: a full successful two-page run replayed against its own
output directory reproduces the same captured list. -/
theorem c2_witness :
    (collectOn envOk nsT 2 (collect envOk nsT 2).dir).files
      = (collect envOk nsT 2).files :=
  (c2_amended envOk nsT 2 rfl
    (fun _ ext h => by rw [← Option.some.inj h]; decide)).2.1

/-- C3 counterexample: the claim as stated is false.  In `envC1`, page 1 is
processed and reaches the step-failed terminal state (Send-to fails), yet
neither the extra-window cleanup nor the checkbox deselection runs before
control moves on. -/
theorem c3_counterexample :
    Ev.select 1 ∈ (collect envC1 nsT 2).events
    ∧ Ev.closeTabs 1 ∉ (collect envC1 nsT 2).events
    ∧ Ev.deselect 1 ∉ (collect envC1 nsT 2).events := by
  refine ⟨?_, ?_, ?_⟩ <;> decide

/-- C3 (amended): the cleanup actions (closing extra windows, returning to
the main window, deselecting all checkboxes) run for every page that
reaches the download phase — both when the page is captured and when the
download times out; they do not run when the select, Send-to or
Coding-sequences step fails, because the loop exits before reaching them. -/
theorem c3_amended (env : Env) (ns : List Char) (fuel p : Nat)
    (dir : List (List Char)) (ex : List Nat) (files : List Entry) (evs : List Ev)
    (hskip : (env.resume && ex.contains p) = false)
    (hj : p ≤ 1 ∨ jump_to_page (env.jump p) p = true)
    (h0 : env.selCount p ≠ 0)
    (hs : env.sendToStep p = SOut.ok) (hc : env.codingStep p = SOut.ok) :
    Ev.closeTabs p ∈ (loopRun env ns (fuel + 1) p dir ex files evs).events
    ∧ Ev.deselect p ∈ (loopRun env ns (fuel + 1) p dir ex files evs).events := by
  rw [loopRun_proc env ns fuel p dir ex files evs hskip hj, if_neg h0, hs, hc]
  cases hd : env.download p with
  | some ext =>
    dsimp only
    constructor <;> exact loopRun_events_mem env ns _ fuel (p + 1) _ _ _ _ (by simp)
  | none =>
    dsimp only
    constructor <;> exact loopRun_events_mem env ns _ fuel (p + 1) _ _ _ _ (by simp)

/-- C3 witness: the amended claim evaluated at a successful page. -/
theorem c3_witness :
    Ev.closeTabs 1 ∈ (loopRun envOk nsT 1 1 [] [] [] []).events
    ∧ Ev.deselect 1 ∈ (loopRun envOk nsT 1 1 [] [] [] []).events :=
  c3_amended envOk nsT 0 1 [] [] [] [] (by decide) (Or.inl (by decide))
    (by decide) rfl rfl

/-- C4 counterexample: the claim as stated is false.  The new file
`x.fa.gz` has extension `.gz`, which is not in the accepted set, yet the
download wait accepts it as the capture candidate because `.fa` occurs as a
substring of the lowercased name. -/
theorem c4_counterexample :
    isAcceptedName fGz = true
    ∧ splitextExt fGz = ['.', 'g', 'z']
    ∧ ['.', 'g', 'z'] ∉ dlMarkers
    ∧ (wait_for_download nsT 1 [] [[fGz]]).result
        = some (canonicalName nsT 1 ['.', 'g', 'z']) := by
  refine ⟨?_, ?_, ?_, ?_⟩ <;> decide

/-- C4 (amended): during a download wait, a newly appearing file is
accepted as the capture candidate iff one of `.fasta`, `.fa`, `.txt`
occurs as a substring of its lowercased name and the original name does not
end (case-sensitively) with `.crdownload` or `.tmp`; in particular a file
with a lowercase `.crdownload` or `.tmp` suffix is never selected.  At most
one file is renamed per call, every renamed file was a new accepted file
observed in some poll, and the only file ever deleted is a pre-existing
file bearing the canonical target name of that single rename. -/
theorem c4_amended (ns : List Char) (p : Nat) (baseline : List (List Char))
    (polls : List (List (List Char))) :
    (∀ fr dst, (fr, dst) ∈ (wait_for_download ns p baseline polls).renames →
      isAcceptedName fr = true ∧ fr ∉ baseline ∧ (∃ cur ∈ polls, fr ∈ cur)
      ∧ endsWithL ['.', 'c', 'r', 'd', 'o', 'w', 'n', 'l', 'o', 'a', 'd'] fr = false
      ∧ endsWithL ['.', 't', 'm', 'p'] fr = false
      ∧ dst = canonicalName ns p (splitextExt fr))
    ∧ (wait_for_download ns p baseline polls).renames.length ≤ 1
    ∧ (∀ c ∈ (wait_for_download ns p baseline polls).removed,
        ∃ fr, (wait_for_download ns p baseline polls).renames = [(fr, c)]) := by
  induction polls with
  | nil =>
    refine ⟨?_, ?_, ?_⟩
    · intro fr dst h; simp [wait_for_download] at h
    · simp [wait_for_download]
    · intro c h; simp [wait_for_download] at h
  | cons cur rest ih =>
    unfold wait_for_download
    cases hfind : (newFiles baseline cur).find? isAcceptedName with
    | some f =>
      dsimp only
      have hacc : isAcceptedName f = true := List.find?_some hfind
      have hfmem : f ∈ newFiles baseline cur := List.mem_of_find?_eq_some hfind
      have hfparts := List.mem_filter.mp hfmem
      have hfin : f ∈ cur := hfparts.1
      have hfnot : f ∉ baseline := by
        have h2 := hfparts.2
        simp only [Bool.not_eq_true'] at h2
        intro hmem
        have h3 : baseline.contains f = true := List.elem_iff.mpr hmem
        rw [h2] at h3
        exact absurd h3 (by simp)
      have haccparts : (dlMarkers.any (fun m => containsSeg m (toLowerList f)))
            = true
          ∧ endsWithL ['.', 'c', 'r', 'd', 'o', 'w', 'n', 'l', 'o', 'a', 'd'] f
            = false
          ∧ endsWithL ['.', 't', 'm', 'p'] f = false := by
        unfold isAcceptedName at hacc
        simp only [Bool.and_eq_true, Bool.not_eq_true'] at hacc
        exact ⟨hacc.1.1, hacc.1.2, hacc.2⟩
      refine ⟨?_, ?_, ?_⟩
      · intro fr dst h
        simp only [List.mem_singleton, Prod.mk.injEq] at h
        obtain ⟨rfl, rfl⟩ := h
        exact ⟨hacc, hfnot, ⟨cur, List.mem_cons_self cur rest, hfin⟩,
          haccparts.2.1, haccparts.2.2, rfl⟩
      · simp
      · intro c h
        by_cases hcc : cur.contains (canonicalName ns p (splitextExt f)) = true
        · rw [if_pos hcc] at h
          simp at h
          exact ⟨f, by rw [h]⟩
        · rw [if_neg hcc] at h
          simp at h
    | none =>
      dsimp only
      obtain ⟨ih1, ih2, ih3⟩ := ih
      refine ⟨?_, ih2, ih3⟩
      intro fr dst h
      obtain ⟨a1, a2, ⟨cur', hcur', hin⟩, a4, a5, a6⟩ := ih1 fr dst h
      exact ⟨a1, a2, ⟨cur', List.mem_cons_of_mem cur hcur', hin⟩, a4, a5, a6⟩

/-- C4 witness: the amended characterization evaluated at the `x.fa.gz`
rename. -/
theorem c4_witness :
    isAcceptedName fGz = true ∧ fGz ∉ ([] : List (List Char))
    ∧ (∃ cur ∈ [[fGz]], fGz ∈ cur)
    ∧ endsWithL ['.', 'c', 'r', 'd', 'o', 'w', 'n', 'l', 'o', 'a', 'd'] fGz = false
    ∧ endsWithL ['.', 't', 'm', 'p'] fGz = false
    ∧ canonicalName nsT 1 ['.', 'g', 'z'] = canonicalName nsT 1 (splitextExt fGz) :=
  (c4_amended nsT 1 [] [[fGz]]).1 fGz (canonicalName nsT 1 ['.', 'g', 'z'])
    (by decide)

/-- C5: if no acceptable new file appears in any poll before the timeout,
the download wait returns the timeout result with no rename and no deletion
performed — so no file with the canonical name is created by the call — and
the collection loop, on a `None` download result, proceeds to page `p + 1`
instead of aborting the run. -/
theorem c5_timeout_containment (ns : List Char) (p : Nat)
    (baseline : List (List Char)) (polls : List (List (List Char)))
    (env : Env) (fuel pg : Nat) (dir : List (List Char)) (ex : List Nat)
    (files : List Entry) (evs : List Ev)
    (hnone : ∀ cur ∈ polls, (newFiles baseline cur).find? isAcceptedName = none)
    (hskip : (env.resume && ex.contains pg) = false)
    (hj : pg ≤ 1 ∨ jump_to_page (env.jump pg) pg = true)
    (h0 : env.selCount pg ≠ 0) (hs : env.sendToStep pg = SOut.ok)
    (hc : env.codingStep pg = SOut.ok) (hd : env.download pg = none) :
    wait_for_download ns p baseline polls = ⟨none, [], []⟩
    ∧ loopRun env ns (fuel + 1) pg dir ex files evs
        = loopRun env ns fuel (pg + 1) dir ex files
            (evsSel evs pg ++ [Ev.sendTo pg, Ev.coding pg, Ev.exportTrigger pg,
              Ev.closeTabs pg, Ev.deselect pg]) := by
  constructor
  · exact wait_none_aux ns p baseline polls hnone
  · rw [loopRun_proc env ns fuel pg dir ex files evs hskip hj, if_neg h0, hs, hc, hd]

/-- C5 witness: timeout containment at a one-poll `.pdf`-only wait and a
page-1 timeout of `envTimeout`. -/
theorem c5_witness :
    wait_for_download nsT 1 [] [[['a', '.', 'p', 'd', 'f']]] = ⟨none, [], []⟩
    ∧ loopRun envTimeout nsT 1 1 [] [] [] []
        = loopRun envTimeout nsT 0 2 [] [] []
            (evsSel [] 1 ++ [Ev.sendTo 1, Ev.coding 1, Ev.exportTrigger 1,
              Ev.closeTabs 1, Ev.deselect 1]) :=
  c5_timeout_containment nsT 1 [] [[['a', '.', 'p', 'd', 'f']]] envTimeout 0 1
    [] [] [] [] (by decide) (by decide) (Or.inl (by decide)) (by decide) rfl rfl rfl

/-- C6: for a page jump, `_jump_to_page` attempts exactly three strategies
in the fixed order page-number input box, next-button whose `page`
attribute equals the target, fixed structural-path click, returning success
at the first strategy that works (the next-button strategy succeeds exactly
when some button's attribute equals the target); and when all three fail,
the collection loop stops with a normal (non-raising) return of the files
collected so far. -/
theorem c6_jump_strategies (je : JumpEnv) (t : Nat) (env : Env) (ns : List Char)
    (fuel p : Nat) (dir : List (List Char)) (ex : List Nat) (files : List Entry)
    (evs : List Ev) (hskip : (env.resume && ex.contains p) = false) (hp : 1 < p)
    (hjf : jump_to_page (env.jump p) p = false) :
    (je.inputBox = true → jump_to_page je t = true
      ∧ jumpAttempts je t = [JStrat.inputBox])
    ∧ (je.inputBox = false → tryNextButtons t je.nextButtonPages = true →
        jump_to_page je t = true
        ∧ jumpAttempts je t = [JStrat.inputBox, JStrat.nextButton])
    ∧ (je.inputBox = false → tryNextButtons t je.nextButtonPages = false →
        jump_to_page je t = je.xpath
        ∧ jumpAttempts je t = [JStrat.inputBox, JStrat.nextButton, JStrat.xpath])
    ∧ (tryNextButtons t je.nextButtonPages = true ↔ some t ∈ je.nextButtonPages)
    ∧ loopRun env ns (fuel + 1) p dir ex files evs
        = ⟨files, evs ++ [Ev.jump p], dir, false⟩ := by
  refine ⟨?_, ?_, ?_, tryNextButtons_iff t je.nextButtonPages,
    loopRun_jump_fail env ns fuel p dir ex files evs hskip hp hjf⟩
  · intro h
    unfold jump_to_page jumpAttempts
    rw [h]
    simp
  · intro h1 h2
    unfold jump_to_page jumpAttempts
    rw [h1, h2]
    simp
  · intro h1 h2
    unfold jump_to_page jumpAttempts
    rw [h1, h2]
    simp

/-- C6 witness: strategy 2 fires on a matching next-button attribute, and a
run whose three strategies all fail stops the loop normally. -/
theorem c6_witness :
    (jump_to_page ⟨false, [none, some 7], true⟩ 7 = true
      ∧ jumpAttempts ⟨false, [none, some 7], true⟩ 7
          = [JStrat.inputBox, JStrat.nextButton])
    ∧ loopRun envJumpFail nsT 1 2 [] [] [] [] = ⟨[], [Ev.jump 2], [], false⟩ :=
  ⟨(c6_jump_strategies ⟨false, [none, some 7], true⟩ 7 envJumpFail nsT 0 2 [] []
      [] [] (by decide) (by decide) rfl).2.1 rfl (by decide),
   (c6_jump_strategies ⟨false, [none, some 7], true⟩ 7 envJumpFail nsT 0 2 [] []
      [] [] (by decide) (by decide) rfl).2.2.2.2⟩

/-- C7: for every terminating collection run, the returned list of captured
files has strictly increasing page numbers with no duplicates — at most one
entry is appended per page and always at the page currently being
processed. -/
theorem c7_pagination_monotone (env : Env) (ns : List Char) (maxPages : Nat) :
    List.Chain' (· < ·) ((collect env ns maxPages).files.map Entry.page) := by
  unfold collect collectOn
  cases hn : env.navRaises with
  | true => simp
  | false =>
    simp only [ite_fb]
    exact loopRun_chain env ns maxPages 1 env.listing _ [] [] (by simp) (by simp)

/-- C8: when the select-all step reports zero selectable records at page
`p`, the run ends at that page without error: the loop returns the files
captured so far, performs no event beyond the select of page `p`, leaves
the directory unchanged and does not raise. -/
theorem c8_zero_results (env : Env) (ns : List Char) (fuel p : Nat)
    (dir : List (List Char)) (ex : List Nat) (files : List Entry) (evs : List Ev)
    (hskip : (env.resume && ex.contains p) = false)
    (hj : p ≤ 1 ∨ jump_to_page (env.jump p) p = true)
    (h0 : env.selCount p = 0) :
    loopRun env ns (fuel + 1) p dir ex files evs
      = ⟨files, evsSel evs p, dir, false⟩ :=
  loopRun_sel0 env ns fuel p dir ex files evs hskip hj h0

/-- C8 witness: a zero-result page 2 of `envC2` ends the run normally. -/
theorem c8_witness :
    loopRun envC2 nsT 1 2 [] [] [] []
      = ⟨[], [Ev.jump 2, Ev.select 2], [], false⟩ :=
  c8_zero_results envC2 nsT 0 2 [] [] [] [] (by decide) (Or.inr rfl) rfl

/-- C9: the resume-scan match is unanchored on the left — any filename of
the form `<prefix><ns>_page_<digits>.<wordchars>` is counted as a completed
page with the integer value of the digit group, for an arbitrary preceding
prefix; the find pattern matches exactly the filenames ending in
`<ns>_page_<p>.<wordchars>` with `p` in plain decimal, again regardless of
what precedes; and the existing-file lookup returns the first file of the
listing satisfying that match. -/
theorem c9_suffix_match (ns pre ds ext : List Char) (p : Nat)
    (listing : List (List Char)) (f : List Char)
    (hds : ds ≠ []) (hdsall : ds.all isDigitCh = true)
    (hext : ext ≠ []) (hextall : ext.all isWordCh = true) :
    scanPageOf ns (pre ++ ns ++ pageSep ++ ds ++ '.' :: ext) = some (digitsVal ds)
    ∧ (findMatch ns p f = true ↔
        ∃ pre2 ext2, f = pre2 ++ ns ++ pageSep ++ natRepr p ++ '.' :: ext2 ∧
          ext2 ≠ [] ∧ ext2.all isWordCh = true)
    ∧ find_existing_file ns p listing = listing.find? (findMatch ns p) := by
  refine ⟨?_, ⟨?_, ?_⟩, rfl⟩
  · exact scan_det ns _ (ns ++ pageSep ++ ds ++ '.' :: ext) _
      ⟨pre, by simp [List.append_assoc]⟩
      ((parseTail_iff ns _ _).mpr ⟨ds, ext, rfl, hds, hdsall, hext, hextall, rfl⟩)
  · intro h
    obtain ⟨s, ⟨t, ht⟩, htail⟩ := findMatch_exists ns p f h
    obtain ⟨ext2, hse, he2, hw2⟩ := (findTail_iff ns p s).mp htail
    exact ⟨t, ext2, by rw [ht, hse]; simp [List.append_assoc], he2, hw2⟩
  · rintro ⟨pre2, ext2, rfl, he2, hw2⟩
    have heq : pre2 ++ ns ++ pageSep ++ natRepr p ++ '.' :: ext2
        = pre2 ++ (ns ++ pageSep ++ natRepr p ++ '.' :: ext2) := by
      simp [List.append_assoc]
    rw [heq]
    exact findMatch_of_sfx ns p pre2 _
      ((findTail_iff ns p _).mpr ⟨ext2, rfl, he2, hw2⟩)

/-- C9 witness: a prefixed filename is scanned with the digit group's
value. -/
theorem c9_witness :
    scanPageOf nsT (['X'] ++ nsT ++ pageSep ++ ['1', '2'] ++ '.' :: ['f', 'a'])
      = some (digitsVal ['1', '2']) :=
  (c9_suffix_match nsT ['X'] ['1', '2'] ['f', 'a'] 3 [] [] (by decide)
    (by decide) (by decide) (by decide)).1

/-- C10: `download_fasta_protein` never propagates an exception — it
returns `None` exactly when the driver setup fails, otherwise the
accumulated file list (also when the run raised); an exception during the
initial navigation yields the empty list; and an exception escaping the
Send-to or Coding-sequences step ends the loop in a raised state carrying
exactly the files captured before the failure. -/
theorem c10_no_exception_escape (env : Env) (ns : List Char) (maxPages : Nat)
    (fuel p : Nat) (dir : List (List Char)) (ex : List Nat) (files : List Entry)
    (evs : List Ev)
    (hskip : (env.resume && ex.contains p) = false)
    (hj : p ≤ 1 ∨ jump_to_page (env.jump p) p = true)
    (h0 : env.selCount p ≠ 0) :
    download_fasta_protein env ns maxPages false = none
    ∧ download_fasta_protein env ns maxPages true
        = some (collect env ns maxPages).files
    ∧ (env.navRaises = true → download_fasta_protein env ns maxPages true = some [])
    ∧ (env.sendToStep p = SOut.exn →
        loopRun env ns (fuel + 1) p dir ex files evs
          = ⟨files, evsSel evs p ++ [Ev.sendTo p], dir, true⟩)
    ∧ (env.sendToStep p = SOut.ok → env.codingStep p = SOut.exn →
        loopRun env ns (fuel + 1) p dir ex files evs
          = ⟨files, evsSel evs p ++ [Ev.sendTo p, Ev.coding p], dir, true⟩) := by
  refine ⟨rfl, rfl, ?_, ?_, ?_⟩
  · intro hn
    simp [download_fasta_protein, collect, collectOn, hn]
  · intro hs
    rw [loopRun_proc env ns fuel p dir ex files evs hskip hj, if_neg h0, hs]
  · intro hs hc
    rw [loopRun_proc env ns fuel p dir ex files evs hskip hj, if_neg h0, hs, hc]

/-- C10 witness: the Send-to exception of `envExn` at page 2 is caught and
the loop ends raised with the files captured so far. -/
theorem c10_witness :
    download_fasta_protein envExn nsT 3 false = none
    ∧ loopRun envExn nsT 1 2 [] [] [] []
        = ⟨[], [Ev.jump 2, Ev.select 2, Ev.sendTo 2], [], true⟩ :=
  ⟨(c10_no_exception_escape envExn nsT 3 0 2 [] [] [] [] (by decide)
      (Or.inr rfl) (by decide)).1,
   (c10_no_exception_escape envExn nsT 3 0 2 [] [] [] [] (by decide)
      (Or.inr rfl) (by decide)).2.2.2.1 rfl⟩

end NCBI
